import Mathlib

/-!
Shallow embedding of the adaptive question-selection and statistics engine
of `main.go` (terminal verb-conjugation drill).

Go maps are embedded as association lists (`alookup` / `aupsert`), with the
Go semantics of "reading a missing key yields the zero value" made explicit
at each read site.  `float32` weights are embedded as exact rationals
(the claims speak of equality "within floating-point tolerance"; none of the
properties settled here hinges on rounding).  `uint16` counters are embedded
as `Nat` reduced modulo `2^16` at each increment (`u16`).

A crucial point of the source is that every mutating method of
`statisticsDatabase` (`updateStats`, `continueStreak`, `endStreak`,
`expand`, `pack`) is declared with a VALUE receiver
(`func (statistics statisticsDatabase) ...`).  In Go this copies the struct:
writes to the scalar field `totalProbWeight` land in the copy and are lost,
while writes through the map headers (`statistics`, `answers`,
`deadRecords`) mutate the shared backing store and are visible to the
caller.  The definitions below model the caller-visible post-state of each
method, which is why `updateStats` leaves `totalProbWeight` unchanged.
-/

namespace Gem2

/-- Lookup in an association list (embeds a Go map read; first match wins). -/
def alookup {α β : Type} [DecidableEq α] : List (α × β) → α → Option β
  | [], _ => none
  | e :: rest, k => if e.1 = k then some e.2 else alookup rest k

/-- Write to an association list (embeds `m[k] = v` on a Go map):
replace the value at the key if present, append otherwise. -/
def aupsert {α β : Type} [DecidableEq α] : List (α × β) → α → β → List (α × β)
  | [], k, v => [(k, v)]
  | e :: rest, k, v => if e.1 = k then (k, v) :: rest else e :: aupsert rest k v

/-- Exit codes of the program (the `exitCode` const block of `main.go`). -/
inductive ExitCode : Type
  | ok
  | databaseError
  | loggingError
  | teaError
  | internalError
  | mistakesLoggingError
  | statisticsError
deriving DecidableEq

/-- Numeric value of each exit code, as fixed in the source. -/
def ExitCode.toNat : ExitCode → Nat
  | .ok => 0
  | .databaseError => 1
  | .loggingError => 2
  | .teaError => 3
  | .internalError => 4
  | .mistakesLoggingError => 5
  | .statisticsError => 6

/-- A prompt: the `prompt` struct of the source, a (form clue, verb) pair. -/
structure Prompt : Type where
  formClue : String
  verb : String
deriving DecidableEq

/-- Per-prompt counters: the `questionStats` struct (`uint16` fields). -/
structure QuestionStats : Type where
  streak : Nat
  correct : Nat
  mistakes : Nat
deriving DecidableEq

/-- Reduction modulo 2^16, the wrap-around of the `uint16` counters. -/
def u16 (n : Nat) : Nat := n % 65536

/-- Sampling weight `1 / (1 + streak)` (the `probWeight` method;
`float32` embedded as an exact rational). -/
def QuestionStats.probWeight (stats : QuestionStats) : ℚ :=
  1 / (1 + (stats.streak : ℚ))

/-- A record of the persisted statistics file (the `promptDataTOML` struct). -/
structure PromptDataTOML : Type where
  Streak : Nat
  Correct : Nat
  Mistakes : Nat
  Answer : String
deriving DecidableEq

/-- The engine's central state: the `statisticsDatabase` struct. -/
structure StatisticsDatabase : Type where
  statistics : List (Prompt × QuestionStats)
  answers : List (Prompt × String)
  totalProbWeight : ℚ
  deadRecords : List (String × PromptDataTOML)
deriving DecidableEq

/-- The in-memory vocabulary table: the `wordDatabase` struct. -/
structure WordDatabase : Type where
  formClue : List String
  verbs : List String
  verbForms : List (List String)
deriving DecidableEq

/-- Go map read `statistics.statistics[prompt]` (zero value when missing). -/
def statsGet (db : StatisticsDatabase) (p : Prompt) : QuestionStats :=
  (alookup db.statistics p).getD ⟨0, 0, 0⟩

/-- Go map read `statistics.answers[prompt]` (zero value when missing). -/
def answersGet (db : StatisticsDatabase) (p : Prompt) : String :=
  (alookup db.answers p).getD ""

/-- The `updateStats` method, as its CALLER observes it.  The source body is

    statistics.totalProbWeight -= statistics.statistics[prompt].probWeight()
    statistics.statistics[prompt] = newStats
    statistics.totalProbWeight += statistics.statistics[prompt].probWeight()

but the receiver is a value: the two writes to `totalProbWeight` act on a
copy of the struct and are discarded, while the map write is shared with
the caller.  The caller-visible effect is therefore just the map update. -/
def updateStats (db : StatisticsDatabase) (p : Prompt) (newStats : QuestionStats) :
    StatisticsDatabase :=
  { db with statistics := aupsert db.statistics p newStats }

/-- Follows the spec's words (and the evident intent of the `updateStats`
body): subtract the old weight, replace the entry, add the new weight.
This is what `updateStats` would do had the receiver been a pointer;
kept for comparison with the actual `updateStats`. -/
def updateStatsSpec (db : StatisticsDatabase) (p : Prompt) (newStats : QuestionStats) :
    StatisticsDatabase :=
  { db with
    statistics := aupsert db.statistics p newStats,
    totalProbWeight :=
      db.totalProbWeight - (statsGet db p).probWeight + newStats.probWeight }

/-- The `endStreak` method: zero the streak, bump the mistake counter. -/
def endStreak (db : StatisticsDatabase) (p : Prompt) : StatisticsDatabase :=
  let oldStats := statsGet db p
  updateStats db p ⟨0, oldStats.correct, u16 (oldStats.mistakes + 1)⟩

/-- The `continueStreak` method: bump the streak and the correct counter. -/
def continueStreak (db : StatisticsDatabase) (p : Prompt) : StatisticsDatabase :=
  let oldStats := statsGet db p
  updateStats db p ⟨u16 (oldStats.streak + 1), u16 (oldStats.correct + 1), oldStats.mistakes⟩

/-- Spec-intended `endStreak`: routes through `updateStatsSpec`. -/
def endStreakSpec (db : StatisticsDatabase) (p : Prompt) : StatisticsDatabase :=
  let oldStats := statsGet db p
  updateStatsSpec db p ⟨0, oldStats.correct, u16 (oldStats.mistakes + 1)⟩

/-- Spec-intended `continueStreak`: routes through `updateStatsSpec`. -/
def continueStreakSpec (db : StatisticsDatabase) (p : Prompt) : StatisticsDatabase :=
  let oldStats := statsGet db p
  updateStatsSpec db p ⟨u16 (oldStats.streak + 1), u16 (oldStats.correct + 1), oldStats.mistakes⟩

/-- Recomputed-from-scratch sum of the sampling weights of all entries;
the quantity the weight invariant compares `totalProbWeight` against. -/
def weightSum (db : StatisticsDatabase) : ℚ :=
  (db.statistics.map (fun e => e.2.probWeight)).sum

/-- One pass of the inner loop of `emptyStatistics` (the loop
`for clueIndex, clue := range database.formClue` for one verb row):
walk the clue labels against the row's form cells; a clue whose cell is
out of range (`len(verbForms[verbIndex]) <= clueIndex`) or empty is
skipped and counted, every other clue yields one (prompt, answer) pair. -/
def rowEntries (verb : String) : List String → List String → List (Prompt × String) × Nat
  | [], _ => ([], 0)
  | _ :: clues, [] =>
    let rest := rowEntries verb clues []
    (rest.1, rest.2 + 1)
  | clue :: clues, form :: forms =>
    let rest := rowEntries verb clues forms
    if form = "" then (rest.1, rest.2 + 1)
    else ((⟨clue, verb⟩, form) :: rest.1, rest.2)

/-- The verb rows of the table, each verb paired with its form row
(the outer loop of `emptyStatistics` indexes `verbForms` by the verb
index; `read_database` guarantees both lists have equal length). -/
def catalogRows (db : WordDatabase) : List (String × List String) :=
  db.verbs.zip db.verbForms

/-- All (prompt, answer) pairs emitted by the two nested loops of
`emptyStatistics`, in iteration order (verb-major, clue-minor). -/
def catalogEntries (db : WordDatabase) : List (Prompt × String) :=
  (catalogRows db).foldr
    (fun row acc => (rowEntries row.1 db.formClue row.2).1 ++ acc) []

/-- Total number of skipped (missing or empty) cells, the
`missing_fields_counter` of `emptyStatistics`. -/
def missingFieldsCount (db : WordDatabase) : Nat :=
  (catalogRows db).foldr
    (fun row acc => (rowEntries row.1 db.formClue row.2).2 + acc) 0

/-- The body of the `emptyStatistics` loops for one valid pair:
`statistics[prompt] = questionStats{}`, `answers[prompt] = answer`,
`totalProbWeight++`. -/
def insertEntry (db : StatisticsDatabase) (e : Prompt × String) : StatisticsDatabase :=
  { db with
    statistics := aupsert db.statistics e.1 ⟨0, 0, 0⟩,
    answers := aupsert db.answers e.1 e.2,
    totalProbWeight := db.totalProbWeight + 1 }

/-- The `emptyStatistics` method: fresh store built from the vocabulary. -/
def emptyStatistics (db : WordDatabase) : StatisticsDatabase :=
  (catalogEntries db).foldl insertEntry ⟨[], [], 0, []⟩

/-- The separator of persisted statistics keys, `statisticsPromptSeparator`. -/
def statisticsPromptSeparator : Char := '+'

/-- Split a character list on every `'+'` (the effect of
`strings.Split(encodedPrompt, "+")` on the key's characters). -/
def splitPlus : List Char → List (List Char)
  | [] => [[]]
  | c :: rest =>
    match splitPlus rest with
    | [] => [[]]
    | g :: gs =>
      if c = statisticsPromptSeparator then [] :: g :: gs else (c :: g) :: gs

/-- Rejoin the fragments with `'+'`; inverse of `splitPlus`. -/
def joinPlus : List (List Char) → List Char
  | [] => []
  | [a] => a
  | a :: rest => a ++ statisticsPromptSeparator :: joinPlus rest

/-- The `encode` method on `prompt`: `"<clue>+<verb>"`. -/
def Prompt.encode (p : Prompt) : String :=
  p.formClue ++ "+" ++ p.verb

/-- The `decodePrompt` function: split the key on `"+"`; any token count
other than two is fatal (`exit(statisticsError)`), modelled as `.error`. -/
def decodePrompt (encodedPrompt : String) : Except ExitCode Prompt :=
  match splitPlus encodedPrompt.data with
  | [a, b] => .ok ⟨String.mk a, String.mk b⟩
  | _ => .error ExitCode.statisticsError

/-- The `expand` method (persistence reconciliation), with the running
`resetRecordsCount`.  For each saved entry: decode the key (fatal on
malformed keys); a prompt absent from the live statistics goes to
`deadRecords`; a present prompt whose recorded answer differs from the
live answer is counted as a reset and skipped; otherwise the saved
counters are adopted through `updateStats`. -/
def expand (db : StatisticsDatabase) (resetRecordsCount : Nat) :
    List (String × PromptDataTOML) → Except ExitCode (StatisticsDatabase × Nat)
  | [] => .ok (db, resetRecordsCount)
  | e :: rest =>
    match decodePrompt e.1 with
    | .error c => .error c
    | .ok p =>
      if (alookup db.statistics p).isNone then
        expand { db with deadRecords := aupsert db.deadRecords e.1 e.2 }
          resetRecordsCount rest
      else if e.2.Answer ≠ answersGet db p then
        expand db (resetRecordsCount + 1) rest
      else
        expand (updateStats db p ⟨e.2.Streak, e.2.Correct, e.2.Mistakes⟩)
          resetRecordsCount rest

/-- The snapshot-building loop of `pack`, folded over the live statistics
entries: never-attempted prompts (`correct == 0 && mistakes == 0`) are
skipped, every other prompt's entry is written into the accumulator,
which the source initialises with the store's own `deadRecords` map. -/
def packFold (db : StatisticsDatabase) :
    List (Prompt × QuestionStats) → List (String × PromptDataTOML) →
    List (String × PromptDataTOML)
  | [], acc => acc
  | e :: rest, acc =>
    if e.2.correct = 0 ∧ e.2.mistakes = 0 then packFold db rest acc
    else
      packFold db rest
        (aupsert acc e.1.encode ⟨e.2.streak, e.2.correct, e.2.mistakes, answersGet db e.1⟩)

/-- The `pack` method, as its caller observes it.  The source ALIASES the
accumulator to the store's `deadRecords` map (`statistics :=
statisticsDatabase.deadRecords`), so every insert of a live entry also
lands in the store's own `deadRecords`; the first component is the
returned snapshot, the second the caller-visible post-state of the store. -/
def pack (db : StatisticsDatabase) :
    List (String × PromptDataTOML) × StatisticsDatabase :=
  let snapshot := packFold db db.statistics db.deadRecords
  (snapshot, { db with deadRecords := snapshot })

/-- A question handed to the presentation layer (the `question` struct). -/
structure Question : Type where
  prompt : Prompt
  correctAnswer : String
deriving DecidableEq

/-- One pass of the selection loop of `getRandomQuestion`: subtract each
entry's weight from the running value; the entry at which it crosses
`<= 0` is returned together with its answer snapshot. -/
def samplePass (db : StatisticsDatabase) :
    List (Prompt × QuestionStats) → ℚ → Option Question
  | [], _ => none
  | e :: rest, r =>
    let r' := r - e.2.probWeight
    if r' ≤ 0 then some ⟨e.1, answersGet db e.1⟩ else samplePass db rest r'

/-- The `getRandomQuestion` method: scale a uniform draw `u ∈ [0,1)` by
`totalProbWeight` and run one selection pass; on a miss the source calls
itself recursively with a fresh draw, modelled here by a fuel bound and
an explicit stream of draws (`none` = the retry loop never returned). -/
def getRandomQuestion (db : StatisticsDatabase) : Nat → List ℚ → Option Question
  | fuel + 1, u :: us =>
    match samplePass db db.statistics (u * db.totalProbWeight) with
    | some q => some q
    | none => getRandomQuestion db fuel us
  | _, _ => none

/-- The character class stripped by Go's `strings.TrimSpace`
(`unicode.IsSpace`): the Unicode White_Space property, i.e.
U+0009..U+000D, space, U+0085 (NEL), U+00A0 (NBSP), U+1680,
U+2000..U+200A, U+2028, U+2029, U+202F, U+205F and U+3000. -/
def isGoSpace (c : Char) : Bool :=
  (0x09 ≤ c.toNat && c.toNat ≤ 0x0D) || c.toNat = 0x20 || c.toNat = 0x85 ||
  c.toNat = 0xA0 || c.toNat = 0x1680 ||
  (0x2000 ≤ c.toNat && c.toNat ≤ 0x200A) || c.toNat = 0x2028 ||
  c.toNat = 0x2029 || c.toNat = 0x202F || c.toNat = 0x205F || c.toNat = 0x3000

/-- Go's `strings.TrimSpace`: drop every leading and trailing character
with the Unicode White_Space property, leaving the interior untouched. -/
def trimSpace (s : String) : String :=
  String.mk (((s.data.dropWhile isGoSpace).reverse.dropWhile isGoSpace).reverse)

/-- The `isAnswerCorrect` method: compare the question's correct answer
with the submitted text, both stripped of leading and trailing
whitespace (`strings.TrimSpace`), character-for-character otherwise. -/
def isAnswerCorrect (correctAnswer submitted : String) : Bool :=
  trimSpace correctAnswer == trimSpace submitted

/-- One answer submission as processed by `inputUpdate`: `true` routes a
correct answer to `continueStreak`, `false` a wrong one to `endStreak`. -/
def applyAct (db : StatisticsDatabase) (a : Bool × Prompt) : StatisticsDatabase :=
  if a.1 then continueStreak db a.2 else endStreak db a.2

/-- A session of answer submissions, applied left to right. -/
def applyActs (db : StatisticsDatabase) (acts : List (Bool × Prompt)) : StatisticsDatabase :=
  acts.foldl applyAct db

/-! Association-list lemmas. -/

theorem alookup_aupsert_self {α β : Type} [DecidableEq α] (m : List (α × β)) (k : α) (v : β) :
    alookup (aupsert m k v) k = some v := by
  induction m with
  | nil => simp [alookup, aupsert]
  | cons e rest ih =>
    by_cases h : e.1 = k
    · simp [aupsert, h, alookup]
    · simp [aupsert, h, alookup, ih]

theorem alookup_aupsert_ne {α β : Type} [DecidableEq α] (m : List (α × β)) {k k' : α}
    (v : β) (h : k' ≠ k) : alookup (aupsert m k v) k' = alookup m k' := by
  have hkk : ¬ (k = k') := fun hh => h hh.symm
  induction m with
  | nil =>
    show alookup [(k, v)] k' = alookup [] k'
    simp only [alookup, if_neg hkk]
  | cons e rest ih =>
    by_cases he : e.1 = k
    · simp only [aupsert, if_pos he]
      simp only [alookup, if_neg hkk]
      rw [if_neg (by rw [he]; exact hkk)]
    · simp only [aupsert, if_neg he, alookup, ih]

theorem aupsert_of_none {α β : Type} [DecidableEq α] {m : List (α × β)} {k : α}
    (v : β) (h : alookup m k = none) : aupsert m k v = m ++ [(k, v)] := by
  induction m with
  | nil => simp [aupsert]
  | cons e rest ih =>
    by_cases he : e.1 = k
    · simp [alookup, he] at h
    · simp only [alookup, if_neg he] at h
      simp [aupsert, he, ih h]

theorem keys_aupsert_of_isSome {α β : Type} [DecidableEq α] {m : List (α × β)} {k : α}
    (v : β) (h : (alookup m k).isSome) :
    (aupsert m k v).map Prod.fst = m.map Prod.fst := by
  induction m with
  | nil => simp [alookup] at h
  | cons e rest ih =>
    by_cases he : e.1 = k
    · simp [aupsert, he]
    · simp only [alookup, if_neg he] at h
      simp [aupsert, he, ih h]

theorem alookup_isSome_iff {α β : Type} [DecidableEq α] (m : List (α × β)) (k : α) :
    (alookup m k).isSome ↔ k ∈ m.map Prod.fst := by
  induction m with
  | nil => simp [alookup]
  | cons e rest ih =>
    by_cases he : e.1 = k
    · simp [alookup, he]
    · simp only [alookup, if_neg he, List.map_cons, List.mem_cons]
      rw [ih]
      constructor
      · exact Or.inr
      · rintro (hh | hh)
        · exact absurd hh.symm he
        · exact hh

theorem alookup_eq_none_iff {α β : Type} [DecidableEq α] (m : List (α × β)) (k : α) :
    alookup m k = none ↔ k ∉ m.map Prod.fst := by
  rw [← alookup_isSome_iff]
  cases alookup m k <;> simp

theorem keys_nodup_aupsert {α β : Type} [DecidableEq α] {m : List (α × β)} (k : α) (v : β)
    (h : (m.map Prod.fst).Nodup) : ((aupsert m k v).map Prod.fst).Nodup := by
  rcases hk : alookup m k with _ | w
  · rw [aupsert_of_none v hk]
    have hnk : k ∉ m.map Prod.fst := (alookup_eq_none_iff m k).mp hk
    simp only [List.map_append, List.map_cons, List.map_nil]
    rw [List.nodup_append]
    refine ⟨h, List.nodup_singleton _, ?_⟩
    intro a ha hb
    simp only [List.mem_singleton] at hb
    subst hb
    exact hnk ha
  · rw [keys_aupsert_of_isSome v (by simp [hk])]
    exact h

theorem mem_of_alookup_eq_some {α β : Type} [DecidableEq α] {m : List (α × β)} {k : α}
    {v : β} (h : alookup m k = some v) : (k, v) ∈ m := by
  induction m with
  | nil => simp [alookup] at h
  | cons e rest ih =>
    obtain ⟨e1, e2⟩ := e
    by_cases he : e1 = k
    · subst he
      simp [alookup] at h
      rw [← h]
      exact List.mem_cons_self _ _
    · refine List.mem_cons_of_mem _ (ih ?_)
      simpa [alookup, he] using h

theorem alookup_of_mem_nodup {α β : Type} [DecidableEq α] {m : List (α × β)} {k : α}
    {v : β} (hm : (k, v) ∈ m) (hnd : (m.map Prod.fst).Nodup) : alookup m k = some v := by
  induction m with
  | nil => simp at hm
  | cons e rest ih =>
    simp only [List.map_cons, List.nodup_cons] at hnd
    rcases List.mem_cons.mp hm with hm | hm
    · rw [← hm]
      simp [alookup]
    · have hk : k ∈ rest.map Prod.fst := by
        simpa using List.mem_map_of_mem Prod.fst hm
      have he : ¬ e.1 = k := fun hh => hnd.1 (hh ▸ hk)
      simp only [alookup, if_neg he]
      exact ih hm hnd.2

/-! Key encoding and decoding lemmas. -/

/-- A prompt whose clue label and verb avoid the reserved separator `'+'`
(the format constraint of the persisted statistics file). -/
def Prompt.PlusFree (p : Prompt) : Prop :=
  statisticsPromptSeparator ∉ p.formClue.data ∧ statisticsPromptSeparator ∉ p.verb.data

instance (p : Prompt) : Decidable p.PlusFree := by
  unfold Prompt.PlusFree
  infer_instance

theorem splitPlus_ne_nil (l : List Char) : splitPlus l ≠ [] := by
  cases l with
  | nil => simp [splitPlus]
  | cons c rest =>
    simp only [splitPlus]
    rcases h : splitPlus rest with _ | ⟨g, gs⟩
    · simp
    · by_cases hc : c = statisticsPromptSeparator <;> simp [hc]

theorem splitPlus_no_sep {l : List Char} (h : statisticsPromptSeparator ∉ l) :
    splitPlus l = [l] := by
  induction l with
  | nil => rfl
  | cons c rest ih =>
    have hc : ¬ c = statisticsPromptSeparator := fun hh => h (hh ▸ List.mem_cons_self c rest)
    have hr : statisticsPromptSeparator ∉ rest := fun hh => h (List.mem_cons_of_mem c hh)
    simp only [splitPlus, ih hr, if_neg hc]

theorem splitPlus_append {a : List Char} (b : List Char)
    (ha : statisticsPromptSeparator ∉ a) :
    splitPlus (a ++ statisticsPromptSeparator :: b) = a :: splitPlus b := by
  induction a with
  | nil =>
    simp only [List.nil_append, splitPlus]
    rcases h : splitPlus b with _ | ⟨g, gs⟩
    · exact absurd h (splitPlus_ne_nil b)
    · simp
  | cons c a0 ih =>
    have hc : ¬ c = statisticsPromptSeparator :=
      fun hh => ha (hh ▸ List.mem_cons_self c a0)
    have ha0 : statisticsPromptSeparator ∉ a0 := fun hh => ha (List.mem_cons_of_mem c hh)
    show splitPlus (c :: (a0 ++ statisticsPromptSeparator :: b)) = _
    simp only [splitPlus]
    rw [ih ha0]
    simp [hc]

theorem joinPlus_splitPlus (l : List Char) : joinPlus (splitPlus l) = l := by
  induction l with
  | nil => rfl
  | cons c rest ih =>
    rcases h : splitPlus rest with _ | ⟨g, gs⟩
    · exact absurd h (splitPlus_ne_nil rest)
    · rw [h] at ih
      by_cases hc : c = statisticsPromptSeparator
      · simp only [splitPlus, h, if_pos hc, joinPlus]
        rw [ih, hc]
        rfl
      · simp only [splitPlus, h, if_neg hc]
        cases gs with
        | nil =>
          simp only [joinPlus] at ih ⊢
          rw [ih]
        | cons g2 gs2 =>
          simp only [joinPlus] at ih ⊢
          rw [List.cons_append, ih]

theorem mem_splitPlus_no_sep {l g : List Char} (h : g ∈ splitPlus l) :
    statisticsPromptSeparator ∉ g := by
  induction l generalizing g with
  | nil =>
    simp [splitPlus] at h
    simp [h]
  | cons c rest ih =>
    rcases hs : splitPlus rest with _ | ⟨g0, gs⟩
    · exact absurd hs (splitPlus_ne_nil rest)
    · by_cases hc : c = statisticsPromptSeparator
      · simp only [splitPlus, hs, if_pos hc] at h
        rcases List.mem_cons.mp h with hg | hg
        · simp [hg]
        · exact ih (hs ▸ hg)
      · simp only [splitPlus, hs, if_neg hc] at h
        rcases List.mem_cons.mp h with hg | hg
        · subst hg
          intro hmem
          rcases List.mem_cons.mp hmem with hh | hh
          · exact hc hh.symm
          · exact ih (hs ▸ List.mem_cons_self g0 gs) hh
        · exact ih (hs ▸ List.mem_cons_of_mem g0 hg)

theorem splitPlus_length (l : List Char) :
    (splitPlus l).length = l.count statisticsPromptSeparator + 1 := by
  induction l with
  | nil => simp [splitPlus]
  | cons c rest ih =>
    rcases hs : splitPlus rest with _ | ⟨g0, gs⟩
    · exact absurd hs (splitPlus_ne_nil rest)
    · rw [hs] at ih
      by_cases hc : c = statisticsPromptSeparator
      · simp only [splitPlus, hs, if_pos hc, List.length_cons]
        have hcnt : (c :: rest).count statisticsPromptSeparator
            = rest.count statisticsPromptSeparator + 1 := by
          simp [List.count_cons, hc]
        rw [hcnt]
        simp only [List.length_cons] at ih
        omega
      · simp only [splitPlus, hs, if_neg hc, List.length_cons]
        have hcnt : (c :: rest).count statisticsPromptSeparator
            = rest.count statisticsPromptSeparator := by
          simp [List.count_cons, hc]
        rw [hcnt]
        simp only [List.length_cons] at ih
        omega

theorem encode_data (p : Prompt) :
    (Prompt.encode p).data = p.formClue.data ++ statisticsPromptSeparator :: p.verb.data := by
  simp only [Prompt.encode, String.data_append, List.append_assoc]
  rfl

theorem decode_encode {p : Prompt} (h : p.PlusFree) :
    decodePrompt p.encode = .ok p := by
  unfold decodePrompt
  rw [encode_data, splitPlus_append _ h.1, splitPlus_no_sep h.2]

theorem decode_error_of_len {s : String} (h : (splitPlus s.data).length ≠ 2) :
    decodePrompt s = .error ExitCode.statisticsError := by
  unfold decodePrompt
  rcases hs : splitPlus s.data with _ | ⟨a, _ | ⟨b, _ | ⟨c, t⟩⟩⟩ <;> rw [hs] at h <;> simp at h ⊢

theorem decode_ok_data {k : String} {p : Prompt} (h : decodePrompt k = .ok p) :
    k.data = p.formClue.data ++ statisticsPromptSeparator :: p.verb.data ∧ p.PlusFree := by
  unfold decodePrompt at h
  rcases hs : splitPlus k.data with _ | ⟨a, _ | ⟨b, _ | ⟨c, t⟩⟩⟩ <;> rw [hs] at h <;>
    simp only [reduceCtorEq] at h
  obtain ⟨rfl⟩ := Except.ok.inj h
  have hjoin := joinPlus_splitPlus k.data
  rw [hs] at hjoin
  refine ⟨?_, ?_, ?_⟩
  · rw [← hjoin]
    rfl
  · exact mem_splitPlus_no_sep (hs ▸ List.mem_cons_self a [b])
  · exact mem_splitPlus_no_sep (hs ▸ List.mem_cons_of_mem a (List.mem_cons_self b []))

theorem decode_ok_inj {k k' : String} {p : Prompt}
    (h : decodePrompt k = .ok p) (h' : decodePrompt k' = .ok p) : k = k' := by
  have h1 := (decode_ok_data h).1
  have h2 := (decode_ok_data h').1
  exact String.ext (h1.trans h2.symm)

theorem encode_inj {p q : Prompt} (hp : p.PlusFree) (hq : q.PlusFree)
    (h : Prompt.encode p = Prompt.encode q) : p = q := by
  have h1 := decode_encode hp
  have h2 := decode_encode hq
  rw [h] at h1
  exact Except.ok.inj (h1.symm.trans h2)

theorem decode_encode_err {p : Prompt} (h : ¬ p.PlusFree) :
    decodePrompt p.encode = .error ExitCode.statisticsError := by
  apply decode_error_of_len
  rw [splitPlus_length, encode_data]
  have hpos : 0 < p.formClue.data.count statisticsPromptSeparator +
      p.verb.data.count statisticsPromptSeparator := by
    unfold Prompt.PlusFree at h
    push_neg at h
    by_cases h1 : statisticsPromptSeparator ∈ p.formClue.data
    · have := List.count_pos_iff.mpr h1
      omega
    · have := List.count_pos_iff.mpr (h h1)
      omega
  rw [List.count_append]
  have h2 : (statisticsPromptSeparator :: p.verb.data).count statisticsPromptSeparator
      = p.verb.data.count statisticsPromptSeparator + 1 := by
    simp
  rw [h2]
  omega

theorem encode_ne_of_decode_ok {k : String} {p q : Prompt}
    (h : decodePrompt k = .ok p) (hpq : q ≠ p) : Prompt.encode q ≠ k := by
  intro hk
  by_cases hq : q.PlusFree
  · have := decode_encode hq
    rw [hk, h] at this
    exact hpq (Except.ok.inj this).symm
  · have := decode_encode_err hq
    rw [hk, h] at this
    exact Except.noConfusion this

theorem decode_ok_eq_encode {k : String} {p : Prompt} (h : decodePrompt k = .ok p) :
    k = Prompt.encode p := by
  have h1 := (decode_ok_data h).1
  have h2 := encode_data p
  exact String.ext (h1.trans h2.symm)

/-! Catalog construction lemmas. -/

/-- The form-matrix cell for a (verb index, clue index) pair, when present. -/
def formCell (db : WordDatabase) (vi ci : Nat) : Option String :=
  (db.verbForms[vi]?).bind (fun row => row[ci]?)

theorem mem_keys_aupsert {α β : Type} [DecidableEq α] {m : List (α × β)} {k k' : α} {v : β}
    (h : k' ∈ (aupsert m k v).map Prod.fst) : k' ∈ m.map Prod.fst ∨ k' = k := by
  induction m with
  | nil =>
    simp [aupsert] at h
    exact Or.inr h
  | cons e rest ih =>
    by_cases he : e.1 = k
    · simp only [aupsert, if_pos he, List.map_cons, List.mem_cons] at h
      rcases h with h | h
      · exact Or.inr h
      · exact Or.inl (by simp [List.mem_cons, h])
    · simp only [aupsert, if_neg he, List.map_cons, List.mem_cons] at h
      rcases h with h | h
      · exact Or.inl (by simp [List.mem_cons, h])
      · rcases ih h with h2 | h2
        · exact Or.inl (by simp [List.mem_cons, h2])
        · exact Or.inr h2

theorem alookup_map_val {α β γ : Type} [DecidableEq α] (m : List (α × β)) (g : β → γ)
    (k : α) : alookup (m.map (fun e => (e.1, g e.2))) k = (alookup m k).map g := by
  induction m with
  | nil => simp [alookup]
  | cons e rest ih =>
    by_cases he : e.1 = k
    · simp [alookup, he]
    · simp [alookup, he, ih]

theorem foldl_insertEntry_dead (L : List (Prompt × String)) (db : StatisticsDatabase) :
    (L.foldl insertEntry db).deadRecords = db.deadRecords := by
  induction L generalizing db with
  | nil => rfl
  | cons e rest ih => exact ih (insertEntry db e)

theorem foldl_insertEntry_keys_eq (L : List (Prompt × String)) (db : StatisticsDatabase)
    (h : db.statistics.map Prod.fst = db.answers.map Prod.fst) :
    (L.foldl insertEntry db).statistics.map Prod.fst
      = (L.foldl insertEntry db).answers.map Prod.fst := by
  induction L generalizing db with
  | nil => exact h
  | cons e rest ih =>
    refine ih (insertEntry db e) ?_
    show (aupsert db.statistics e.1 ⟨0, 0, 0⟩).map Prod.fst
        = (aupsert db.answers e.1 e.2).map Prod.fst
    rcases hk : alookup db.statistics e.1 with _ | w
    · have hk2 : alookup db.answers e.1 = none := by
        rw [alookup_eq_none_iff] at hk ⊢
        rw [← h]
        exact hk
      rw [aupsert_of_none _ hk, aupsert_of_none _ hk2]
      simp [h]
    · have hk2 : (alookup db.answers e.1).isSome := by
        rw [alookup_isSome_iff, ← h, ← alookup_isSome_iff, hk]
        rfl
      rw [keys_aupsert_of_isSome _ (by rw [hk] ; rfl), keys_aupsert_of_isSome _ hk2]
      exact h

theorem foldl_insertEntry_keys_nodup (L : List (Prompt × String)) (db : StatisticsDatabase)
    (h : (db.statistics.map Prod.fst).Nodup) :
    ((L.foldl insertEntry db).statistics.map Prod.fst).Nodup := by
  induction L generalizing db with
  | nil => exact h
  | cons e rest ih => exact ih (insertEntry db e) (keys_nodup_aupsert e.1 _ h)

theorem foldl_insertEntry_values_zero (L : List (Prompt × String)) (db : StatisticsDatabase)
    (h : ∀ p s, alookup db.statistics p = some s → s = ⟨0, 0, 0⟩) :
    ∀ p s, alookup (L.foldl insertEntry db).statistics p = some s → s = ⟨0, 0, 0⟩ := by
  induction L generalizing db with
  | nil => exact h
  | cons e rest ih =>
    refine ih (insertEntry db e) ?_
    intro p s hp
    by_cases hpe : p = e.1
    · rw [show (insertEntry db e).statistics = aupsert db.statistics e.1 ⟨0, 0, 0⟩ from rfl,
        hpe, alookup_aupsert_self] at hp
      exact (Option.some.inj hp).symm
    · rw [show (insertEntry db e).statistics = aupsert db.statistics e.1 ⟨0, 0, 0⟩ from rfl,
        alookup_aupsert_ne _ _ hpe] at hp
      exact h p s hp

theorem foldl_insertEntry_keys_sub (L : List (Prompt × String)) (db : StatisticsDatabase) :
    ∀ k ∈ (L.foldl insertEntry db).statistics.map Prod.fst,
      k ∈ db.statistics.map Prod.fst ∨ k ∈ L.map Prod.fst := by
  induction L generalizing db with
  | nil => exact fun k hk => Or.inl hk
  | cons e rest ih =>
    intro k hk
    rcases ih (insertEntry db e) k hk with h | h
    · rcases mem_keys_aupsert h with h2 | h2
      · exact Or.inl h2
      · exact Or.inr (by simp [h2])
    · exact Or.inr (by simp [List.mem_cons, h])

theorem foldl_insertEntry_of_disjoint (L : List (Prompt × String)) (db : StatisticsDatabase)
    (hnd : (L.map Prod.fst).Nodup)
    (hdisj : ∀ e ∈ L, e.1 ∉ db.statistics.map Prod.fst)
    (hkeys : db.statistics.map Prod.fst = db.answers.map Prod.fst) :
    L.foldl insertEntry db =
      { statistics := db.statistics ++ L.map (fun e => (e.1, ⟨0, 0, 0⟩)),
        answers := db.answers ++ L,
        totalProbWeight := db.totalProbWeight + L.length,
        deadRecords := db.deadRecords } := by
  induction L generalizing db with
  | nil => simp
  | cons e rest ih =>
    have hse : alookup db.statistics e.1 = none := by
      rw [alookup_eq_none_iff]
      exact hdisj e (List.mem_cons_self e rest)
    have hae : alookup db.answers e.1 = none := by
      rw [alookup_eq_none_iff, ← hkeys]
      exact hdisj e (List.mem_cons_self e rest)
    have hins : insertEntry db e =
        { statistics := db.statistics ++ [(e.1, ⟨0, 0, 0⟩)],
          answers := db.answers ++ [e],
          totalProbWeight := db.totalProbWeight + 1,
          deadRecords := db.deadRecords } := by
      show ({ db with
          statistics := aupsert db.statistics e.1 ⟨0, 0, 0⟩,
          answers := aupsert db.answers e.1 e.2,
          totalProbWeight := db.totalProbWeight + 1 } : StatisticsDatabase) = _
      rw [aupsert_of_none _ hse, aupsert_of_none _ hae]
    simp only [List.map_cons, List.nodup_cons] at hnd
    have hstep := ih (insertEntry db e) hnd.2 ?_ ?_
    · rw [List.foldl_cons, hstep, hins]
      simp only [List.map_cons, List.length_cons, StatisticsDatabase.mk.injEq,
        List.append_assoc, List.singleton_append, List.cons_append, List.nil_append]
      refine ⟨trivial, trivial, ?_, trivial⟩
      push_cast
      ring
    · intro e2 he2
      rw [hins]
      simp only [List.map_append, List.map_cons, List.map_nil, List.mem_append,
        List.mem_singleton]
      rintro (hc | hc)
      · exact hdisj e2 (List.mem_cons_of_mem e he2) hc
      · exact hnd.1 (hc ▸ List.mem_map_of_mem Prod.fst he2)
    · rw [hins]
      simp only [List.map_append, List.map_cons, List.map_nil]
      rw [hkeys]

theorem catalogEntries_cons (clues : List String) (v : String) (vs : List String)
    (f : List String) (fss : List (List String)) :
    catalogEntries ⟨clues, v :: vs, f :: fss⟩
      = (rowEntries v clues f).1 ++ catalogEntries ⟨clues, vs, fss⟩ := rfl

theorem missingFieldsCount_cons (clues : List String) (v : String) (vs : List String)
    (f : List String) (fss : List (List String)) :
    missingFieldsCount ⟨clues, v :: vs, f :: fss⟩
      = (rowEntries v clues f).2 + missingFieldsCount ⟨clues, vs, fss⟩ := rfl

theorem rowEntries_verb (v : String) (cs : List String) :
    ∀ (fs : List String), ∀ e ∈ (rowEntries v cs fs).1, e.1.verb = v := by
  induction cs with
  | nil =>
    intro fs e he
    simp [rowEntries] at he
  | cons clue cs0 ih =>
    intro fs e he
    cases fs with
    | nil => exact ih [] e he
    | cons f fs0 =>
      by_cases hf : f = ""
      · simp only [rowEntries, if_pos hf] at he
        exact ih fs0 e he
      · simp only [rowEntries, if_neg hf] at he
        rcases List.mem_cons.mp he with he | he
        · rw [he]
        · exact ih fs0 e he

theorem rowEntries_clue_mem (v : String) (cs : List String) :
    ∀ (fs : List String), ∀ e ∈ (rowEntries v cs fs).1, e.1.formClue ∈ cs := by
  induction cs with
  | nil =>
    intro fs e he
    simp [rowEntries] at he
  | cons clue cs0 ih =>
    intro fs e he
    cases fs with
    | nil => exact List.mem_cons_of_mem clue (ih [] e he)
    | cons f fs0 =>
      by_cases hf : f = ""
      · simp only [rowEntries, if_pos hf] at he
        exact List.mem_cons_of_mem clue (ih fs0 e he)
      · simp only [rowEntries, if_neg hf] at he
        rcases List.mem_cons.mp he with he | he
        · rw [he]
          exact List.mem_cons_self clue cs0
        · exact List.mem_cons_of_mem clue (ih fs0 e he)

theorem rowEntries_clue_sublist (v : String) (cs : List String) :
    ∀ (fs : List String),
    ((rowEntries v cs fs).1.map (fun e => e.1.formClue)).Sublist cs := by
  induction cs with
  | nil =>
    intro fs
    simp [rowEntries]
  | cons clue cs0 ih =>
    intro fs
    cases fs with
    | nil => exact (ih []).cons clue
    | cons f fs0 =>
      by_cases hf : f = ""
      · simp only [rowEntries, if_pos hf]
        exact (ih fs0).cons clue
      · simp only [rowEntries, if_neg hf, List.map_cons]
        exact (ih fs0).cons₂ clue

theorem rowEntries_keys_nodup (v : String) (cs fs : List String) (h : cs.Nodup) :
    ((rowEntries v cs fs).1.map Prod.fst).Nodup := by
  have h1 : ((rowEntries v cs fs).1.map (fun e => e.1.formClue)).Nodup :=
    (rowEntries_clue_sublist v cs fs).nodup h
  have h2 : (rowEntries v cs fs).1.map (fun e => e.1.formClue)
      = ((rowEntries v cs fs).1.map Prod.fst).map Prompt.formClue := by
    simp [List.map_map]
  rw [h2] at h1
  exact h1.of_map _

theorem rowEntries_count (v : String) (cs : List String) :
    ∀ (fs : List String),
    (rowEntries v cs fs).1.length + (rowEntries v cs fs).2 = cs.length := by
  induction cs with
  | nil =>
    intro fs
    simp [rowEntries]
  | cons clue cs0 ih =>
    intro fs
    cases fs with
    | nil =>
      have := ih []
      simp only [rowEntries, List.length_cons]
      omega
    | cons f fs0 =>
      have := ih fs0
      by_cases hf : f = ""
      · simp only [rowEntries, if_pos hf, List.length_cons]
        omega
      · simp only [rowEntries, if_neg hf, List.length_cons]
        omega

theorem mem_rowEntries_iff (v : String) (cs : List String) :
    ∀ (fs : List String) (e : Prompt × String),
    e ∈ (rowEntries v cs fs).1 ↔
      e.1.verb = v ∧ ∃ ci : Nat, cs[ci]? = some e.1.formClue ∧ fs[ci]? = some e.2 ∧ e.2 ≠ "" := by
  induction cs with
  | nil =>
    intro fs e
    constructor
    · intro h
      simp [rowEntries] at h
    · rintro ⟨hv, ci, hc, ha, hne⟩
      simp at hc
  | cons clue cs0 ih =>
    intro fs e
    obtain ⟨⟨ec, ev⟩, ea⟩ := e
    cases fs with
    | nil =>
      rw [show rowEntries v (clue :: cs0) [] = ((rowEntries v cs0 []).1,
        (rowEntries v cs0 []).2 + 1) from rfl]
      rw [ih []]
      constructor
      · rintro ⟨hv, ci, hc, ha, hne⟩
        simp at ha
      · rintro ⟨hv, ci, hc, ha, hne⟩
        simp at ha
    | cons f fs0 =>
      by_cases hf : f = ""
      · simp only [rowEntries, if_pos hf]
        rw [ih fs0]
        constructor
        · rintro ⟨hv, ci, hc, ha, hne⟩
          exact ⟨hv, ci + 1, by simpa using hc, by simpa using ha, hne⟩
        · rintro ⟨hv, ci, hc, ha, hne⟩
          cases ci with
          | zero =>
            simp only [List.getElem?_cons_zero, Option.some.injEq] at ha
            exact absurd (ha.symm.trans hf) hne
          | succ ci0 =>
            exact ⟨hv, ci0, by simpa using hc, by simpa using ha, hne⟩
      · simp only [rowEntries, if_neg hf, List.mem_cons]
        rw [ih fs0]
        constructor
        · rintro (he | ⟨hv, ci, hc, ha, hne⟩)
          · obtain ⟨h1, h2⟩ := Prod.mk.inj he
            obtain ⟨h3, h4⟩ := Prompt.mk.inj h1
            subst h2 h3 h4
            exact ⟨rfl, 0, by simp, by simp, hf⟩
          · exact ⟨hv, ci + 1, by simpa using hc, by simpa using ha, hne⟩
        · rintro ⟨hv, ci, hc, ha, hne⟩
          cases ci with
          | zero =>
            simp only [List.getElem?_cons_zero, Option.some.injEq] at hc ha
            left
            rw [show ev = v from hv, ← hc, ← ha]
          | succ ci0 =>
            right
            exact ⟨hv, ci0, by simpa using hc, by simpa using ha, hne⟩

theorem mem_catalogEntries_components (clues : List String) :
    ∀ (verbs : List String) (forms : List (List String)),
    ∀ e ∈ catalogEntries ⟨clues, verbs, forms⟩, e.1.formClue ∈ clues ∧ e.1.verb ∈ verbs := by
  intro verbs
  induction verbs with
  | nil =>
    intro forms e he
    simp [catalogEntries, catalogRows] at he
  | cons v vs ih =>
    intro forms e he
    cases forms with
    | nil => simp [catalogEntries, catalogRows] at he
    | cons f fss =>
      rw [catalogEntries_cons] at he
      rcases List.mem_append.mp he with he | he
      · exact ⟨rowEntries_clue_mem v clues f e he,
          (rowEntries_verb v clues f e he) ▸ List.mem_cons_self v vs⟩
      · exact ⟨(ih fss e he).1, List.mem_cons_of_mem v (ih fss e he).2⟩

theorem mem_catalogEntries_iff (clues : List String) :
    ∀ (verbs : List String) (forms : List (List String)), forms.length = verbs.length →
    ∀ e : Prompt × String,
    e ∈ catalogEntries ⟨clues, verbs, forms⟩ ↔
      ∃ vi ci : Nat, verbs[vi]? = some e.1.verb ∧ clues[ci]? = some e.1.formClue ∧
        (forms[vi]?.bind (fun row => row[ci]?)) = some e.2 ∧ e.2 ≠ "" := by
  intro verbs
  induction verbs with
  | nil =>
    intro forms hlen e
    constructor
    · intro he
      simp [catalogEntries, catalogRows] at he
    · rintro ⟨vi, ci, hv, _⟩
      simp at hv
  | cons v vs ih =>
    intro forms hlen e
    cases forms with
    | nil => simp at hlen
    | cons f fss =>
      simp only [List.length_cons] at hlen
      rw [catalogEntries_cons, List.mem_append, mem_rowEntries_iff,
        ih fss (by omega) e]
      constructor
      · rintro (⟨hv, ci, hc, ha, hne⟩ | ⟨vi, ci, hv, hc, ha, hne⟩)
        · exact ⟨0, ci, by simp [hv], hc, by simpa using ha, hne⟩
        · exact ⟨vi + 1, ci, by simpa using hv, hc, by simpa using ha, hne⟩
      · rintro ⟨vi, ci, hv, hc, ha, hne⟩
        cases vi with
        | zero =>
          simp only [List.getElem?_cons_zero, Option.some.injEq] at hv ha
          exact Or.inl ⟨hv.symm, ci, hc, by simpa using ha, hne⟩
        | succ vi0 =>
          exact Or.inr ⟨vi0, ci, by simpa using hv, hc, by simpa using ha, hne⟩

theorem catalogEntries_verb_mem (clues : List String) :
    ∀ (verbs : List String) (forms : List (List String)),
    ∀ e ∈ catalogEntries ⟨clues, verbs, forms⟩, e.1.verb ∈ verbs := by
  intro verbs forms e he
  exact (mem_catalogEntries_components clues verbs forms e he).2

theorem catalogEntries_keys_nodup (clues : List String) (h1 : clues.Nodup) :
    ∀ (verbs : List String) (forms : List (List String)), verbs.Nodup →
    ((catalogEntries ⟨clues, verbs, forms⟩).map Prod.fst).Nodup := by
  intro verbs
  induction verbs with
  | nil =>
    intro forms _
    simp [catalogEntries, catalogRows]
  | cons v vs ih =>
    intro forms h2
    cases forms with
    | nil => simp [catalogEntries, catalogRows]
    | cons f fss =>
      simp only [List.nodup_cons] at h2
      rw [catalogEntries_cons, List.map_append, List.nodup_append]
      refine ⟨rowEntries_keys_nodup v clues f h1, ih fss h2.2, ?_⟩
      intro k hk hk2
      simp only [List.mem_map] at hk hk2
      obtain ⟨e1, he1, hke1⟩ := hk
      obtain ⟨e2, he2, hke2⟩ := hk2
      have hv1 : k.verb = v := hke1 ▸ rowEntries_verb v clues f e1 he1
      have hv2 : k.verb ∈ vs := hke2 ▸ catalogEntries_verb_mem clues vs fss e2 he2
      exact h2.1 (hv1 ▸ hv2)

theorem catalogEntries_count (clues : List String) :
    ∀ (verbs : List String) (forms : List (List String)), forms.length = verbs.length →
    (catalogEntries ⟨clues, verbs, forms⟩).length + missingFieldsCount ⟨clues, verbs, forms⟩
      = verbs.length * clues.length := by
  intro verbs
  induction verbs with
  | nil =>
    intro forms hlen
    simp [catalogEntries, catalogRows, missingFieldsCount]
  | cons v vs ih =>
    intro forms hlen
    cases forms with
    | nil => simp at hlen
    | cons f fss =>
      simp only [List.length_cons] at hlen
      rw [catalogEntries_cons, missingFieldsCount_cons, List.length_append]
      have hrow := rowEntries_count v clues f
      have hrest := ih fss (by omega)
      simp only [List.length_cons]
      calc (rowEntries v clues f).1.length + (catalogEntries ⟨clues, vs, fss⟩).length +
            ((rowEntries v clues f).2 + missingFieldsCount ⟨clues, vs, fss⟩)
          = ((rowEntries v clues f).1.length + (rowEntries v clues f).2) +
            ((catalogEntries ⟨clues, vs, fss⟩).length +
              missingFieldsCount ⟨clues, vs, fss⟩) := by omega
        _ = clues.length + vs.length * clues.length := by rw [hrow, hrest]
        _ = (vs.length + 1) * clues.length := by ring

/-! Facts about the freshly built store. -/

theorem emptyStatistics_dead (db : WordDatabase) :
    (emptyStatistics db).deadRecords = [] :=
  foldl_insertEntry_dead (catalogEntries db) ⟨[], [], 0, []⟩

theorem emptyStatistics_keys_eq (db : WordDatabase) :
    (emptyStatistics db).statistics.map Prod.fst
      = (emptyStatistics db).answers.map Prod.fst :=
  foldl_insertEntry_keys_eq (catalogEntries db) ⟨[], [], 0, []⟩ rfl

theorem emptyStatistics_keys_nodup (db : WordDatabase) :
    ((emptyStatistics db).statistics.map Prod.fst).Nodup :=
  foldl_insertEntry_keys_nodup (catalogEntries db) ⟨[], [], 0, []⟩ List.nodup_nil

theorem emptyStatistics_values_zero (db : WordDatabase) :
    ∀ p s, alookup (emptyStatistics db).statistics p = some s → s = ⟨0, 0, 0⟩ :=
  foldl_insertEntry_values_zero (catalogEntries db) ⟨[], [], 0, []⟩
    (by intro p s h; simp [alookup] at h)

theorem emptyStatistics_keys_plusfree (db : WordDatabase)
    (hc : ∀ c ∈ db.formClue, statisticsPromptSeparator ∉ c.data)
    (hv : ∀ v ∈ db.verbs, statisticsPromptSeparator ∉ v.data) :
    ∀ p ∈ (emptyStatistics db).statistics.map Prod.fst, p.PlusFree := by
  intro p hp
  rcases foldl_insertEntry_keys_sub (catalogEntries db) ⟨[], [], 0, []⟩ p hp with h | h
  · simp at h
  · simp only [List.mem_map] at h
    obtain ⟨e, he, hep⟩ := h
    obtain ⟨clues, verbs, forms⟩ := db
    have := mem_catalogEntries_components clues verbs forms e he
    exact ⟨hep ▸ hc _ this.1, hep ▸ hv _ this.2⟩

theorem emptyStatistics_eq (db : WordDatabase)
    (hnd : ((catalogEntries db).map Prod.fst).Nodup) :
    emptyStatistics db =
      { statistics := (catalogEntries db).map (fun e => (e.1, ⟨0, 0, 0⟩)),
        answers := catalogEntries db,
        totalProbWeight := ((catalogEntries db).length : ℚ),
        deadRecords := [] } := by
  have h := foldl_insertEntry_of_disjoint (catalogEntries db) ⟨[], [], 0, []⟩ hnd
    (by intro e _; simp [alookup]) rfl
  rw [show emptyStatistics db = (catalogEntries db).foldl insertEntry ⟨[], [], 0, []⟩ from rfl, h]
  simp

/-! Mutation-protocol lemmas. -/

theorem u16_eq_of_le {n : Nat} (h : n ≤ 65535) : u16 n = n :=
  Nat.mod_eq_of_lt (by omega)

theorem statsGet_updateStats_self (db : StatisticsDatabase) (p : Prompt)
    (ns : QuestionStats) : statsGet (updateStats db p ns) p = ns := by
  simp [statsGet, updateStats, alookup_aupsert_self]

theorem statsGet_updateStats_ne (db : StatisticsDatabase) (p : Prompt)
    (ns : QuestionStats) {q : Prompt} (h : q ≠ p) :
    statsGet (updateStats db p ns) q = statsGet db q := by
  simp [statsGet, updateStats, alookup_aupsert_ne _ _ h]

theorem updateStats_keys (db : StatisticsDatabase) {p : Prompt} (ns : QuestionStats)
    (h : p ∈ db.statistics.map Prod.fst) :
    (updateStats db p ns).statistics.map Prod.fst = db.statistics.map Prod.fst :=
  keys_aupsert_of_isSome ns ((alookup_isSome_iff db.statistics p).mpr h)

theorem applyActs_fields (acts : List (Bool × Prompt)) (db : StatisticsDatabase)
    (hmem : ∀ a ∈ acts, a.2 ∈ db.statistics.map Prod.fst) :
    (applyActs db acts).statistics.map Prod.fst = db.statistics.map Prod.fst ∧
    (applyActs db acts).answers = db.answers ∧
    (applyActs db acts).deadRecords = db.deadRecords ∧
    (applyActs db acts).totalProbWeight = db.totalProbWeight := by
  induction acts generalizing db with
  | nil => exact ⟨rfl, rfl, rfl, rfl⟩
  | cons a rest ih =>
    have hmema : a.2 ∈ db.statistics.map Prod.fst := hmem a (List.mem_cons_self a rest)
    have hkeys : (applyAct db a).statistics.map Prod.fst = db.statistics.map Prod.fst := by
      obtain ⟨b, p⟩ := a
      cases b <;> simp only [applyAct, if_true, if_false, Bool.false_eq_true, ite_false,
        ite_true, continueStreak, endStreak] <;> exact updateStats_keys db _ hmema
    have hflds : (applyAct db a).answers = db.answers ∧
        (applyAct db a).deadRecords = db.deadRecords ∧
        (applyAct db a).totalProbWeight = db.totalProbWeight := by
      obtain ⟨b, p⟩ := a
      cases b <;> simp [applyAct, continueStreak, endStreak, updateStats]
    have := ih (applyAct db a)
      (fun a2 ha2 => hkeys ▸ hmem a2 (List.mem_cons_of_mem a ha2))
    exact ⟨this.1.trans hkeys, this.2.1.trans hflds.1, this.2.2.1.trans hflds.2.1,
      this.2.2.2.trans hflds.2.2⟩

/-- Counter bounds maintained across a session of at most 65535 answers:
streaks never exceed correct counts and no counter has wrapped. -/
def StatsBounded (db : StatisticsDatabase) (n : Nat) : Prop :=
  ∀ p, (statsGet db p).streak ≤ (statsGet db p).correct ∧
    (statsGet db p).correct ≤ n ∧ (statsGet db p).mistakes ≤ n

theorem statsBounded_applyAct {db : StatisticsDatabase} {n : Nat} (a : Bool × Prompt)
    (h : StatsBounded db n) (hn : n + 1 ≤ 65535) :
    StatsBounded (applyAct db a) (n + 1) := by
  obtain ⟨b, p⟩ := a
  intro q
  by_cases hq : q = p
  · subst hq
    obtain ⟨h1, h2, h3⟩ := h q
    cases b
    · simp only [applyAct, Bool.false_eq_true, ite_false, endStreak,
        statsGet_updateStats_self]
      rw [u16_eq_of_le (by omega)]
      exact ⟨by omega, by omega, by omega⟩
    · simp only [applyAct, ite_true, continueStreak, statsGet_updateStats_self]
      rw [u16_eq_of_le (by omega), u16_eq_of_le (by omega)]
      exact ⟨by omega, by omega, by omega⟩
  · have hget : statsGet (applyAct db (b, p)) q = statsGet db q := by
      cases b <;> simp only [applyAct, Bool.false_eq_true, ite_false, ite_true,
        continueStreak, endStreak] <;> exact statsGet_updateStats_ne db _ _ hq
    rw [hget]
    obtain ⟨h1, h2, h3⟩ := h q
    exact ⟨h1, by omega, by omega⟩

theorem statsBounded_applyActs (acts : List (Bool × Prompt)) {db : StatisticsDatabase}
    {n : Nat} (h : StatsBounded db n) (hn : n + acts.length ≤ 65535) :
    StatsBounded (applyActs db acts) (n + acts.length) := by
  induction acts generalizing db n with
  | nil => exact h
  | cons a rest ih =>
    simp only [List.length_cons] at hn ⊢
    have hstep := statsBounded_applyAct a h (by omega)
    have := ih hstep (by omega)
    have harith : n + 1 + rest.length = n + (rest.length + 1) := by omega
    rw [harith] at this
    exact this

theorem emptyStatistics_statsBounded (db : WordDatabase) :
    StatsBounded (emptyStatistics db) 0 := by
  intro p
  rcases h : alookup (emptyStatistics db).statistics p with _ | s
  · simp [statsGet, h]
  · have := emptyStatistics_values_zero db p s h
    simp [statsGet, h, this]

/-! Serialization (`pack`) lemmas. -/

theorem mem_aupsert {α β : Type} [DecidableEq α] {m : List (α × β)} {k : α} {v : β}
    {x : α × β} (h : x ∈ aupsert m k v) : x ∈ m ∨ x = (k, v) := by
  induction m with
  | nil =>
    simp [aupsert] at h
    exact Or.inr h
  | cons e rest ih =>
    by_cases he : e.1 = k
    · simp only [aupsert, if_pos he, List.mem_cons] at h
      rcases h with h | h
      · exact Or.inr h
      · exact Or.inl (List.mem_cons_of_mem e h)
    · simp only [aupsert, if_neg he, List.mem_cons] at h
      rcases h with h | h
      · exact Or.inl (h ▸ List.mem_cons_self e rest)
      · rcases ih h with h2 | h2
        · exact Or.inl (List.mem_cons_of_mem e h2)
        · exact Or.inr h2

theorem packFold_lookup_ne (db : StatisticsDatabase) (L : List (Prompt × QuestionStats))
    (acc : List (String × PromptDataTOML)) {k : String}
    (h : ∀ e ∈ L, Prompt.encode e.1 ≠ k) :
    alookup (packFold db L acc) k = alookup acc k := by
  induction L generalizing acc with
  | nil => rfl
  | cons e rest ih =>
    by_cases hz : e.2.correct = 0 ∧ e.2.mistakes = 0
    · rw [show packFold db (e :: rest) acc = packFold db rest acc from by
        simp [packFold, hz]]
      exact ih _ (fun e2 he2 => h e2 (List.mem_cons_of_mem e he2))
    · rw [show packFold db (e :: rest) acc = packFold db rest
        (aupsert acc e.1.encode ⟨e.2.streak, e.2.correct, e.2.mistakes, answersGet db e.1⟩)
        from by simp [packFold, hz]]
      rw [ih _ (fun e2 he2 => h e2 (List.mem_cons_of_mem e he2))]
      exact alookup_aupsert_ne _ _ (fun hh => h e (List.mem_cons_self e rest) hh.symm)

theorem packFold_lookup_mem (db : StatisticsDatabase) (L : List (Prompt × QuestionStats))
    (acc : List (String × PromptDataTOML)) {p : Prompt} {st : QuestionStats}
    (hmem : (p, st) ∈ L) (hnd : (L.map Prod.fst).Nodup)
    (hpf : ∀ e ∈ L, e.1.PlusFree)
    (hatt : ¬(st.correct = 0 ∧ st.mistakes = 0)) :
    alookup (packFold db L acc) p.encode
      = some ⟨st.streak, st.correct, st.mistakes, answersGet db p⟩ := by
  induction L generalizing acc with
  | nil => simp at hmem
  | cons e rest ih =>
    simp only [List.map_cons, List.nodup_cons] at hnd
    rcases List.mem_cons.mp hmem with hm | hm
    · have he : e = (p, st) := hm.symm
      subst he
      rw [show packFold db ((p, st) :: rest) acc = packFold db rest
          (aupsert acc p.encode ⟨st.streak, st.correct, st.mistakes, answersGet db p⟩)
          from by simp [packFold, hatt]]
      rw [packFold_lookup_ne db rest _ ?_, alookup_aupsert_self]
      intro e2 he2 henc
      have hne : e2.1 ≠ p := by
        intro hh
        have hmm : e2.1 ∈ rest.map Prod.fst := List.mem_map_of_mem Prod.fst he2
        rw [hh] at hmm
        exact hnd.1 hmm
      exact hne ((encode_inj (hpf e2 (List.mem_cons_of_mem _ he2))
        (hpf (p, st) (List.mem_cons_self _ rest)) henc))
    · have ihr := fun acc2 =>
        ih acc2 hm hnd.2 (fun e2 he2 => hpf e2 (List.mem_cons_of_mem e he2))
      by_cases hz : e.2.correct = 0 ∧ e.2.mistakes = 0
      · rw [show packFold db (e :: rest) acc = packFold db rest acc from by
          simp [packFold, hz]]
        exact ihr acc
      · rw [show packFold db (e :: rest) acc = packFold db rest
          (aupsert acc e.1.encode ⟨e.2.streak, e.2.correct, e.2.mistakes, answersGet db e.1⟩)
          from by simp [packFold, hz]]
        exact ihr _

theorem mem_packFold (db : StatisticsDatabase) (L : List (Prompt × QuestionStats))
    (acc : List (String × PromptDataTOML)) :
    ∀ x ∈ packFold db L acc, x ∈ acc ∨ ∃ ps ∈ L, ¬(ps.2.correct = 0 ∧ ps.2.mistakes = 0) ∧
      x = (Prompt.encode ps.1,
        ⟨ps.2.streak, ps.2.correct, ps.2.mistakes, answersGet db ps.1⟩) := by
  induction L generalizing acc with
  | nil => exact fun x hx => Or.inl hx
  | cons e rest ih =>
    intro x hx
    by_cases hz : e.2.correct = 0 ∧ e.2.mistakes = 0
    · rw [show packFold db (e :: rest) acc = packFold db rest acc from by
        simp [packFold, hz]] at hx
      rcases ih acc x hx with h | ⟨ps, hps, hps2, hps3⟩
      · exact Or.inl h
      · exact Or.inr ⟨ps, List.mem_cons_of_mem e hps, hps2, hps3⟩
    · rw [show packFold db (e :: rest) acc = packFold db rest
        (aupsert acc e.1.encode ⟨e.2.streak, e.2.correct, e.2.mistakes, answersGet db e.1⟩)
        from by simp [packFold, hz]] at hx
      rcases ih _ x hx with h | ⟨ps, hps, hps2, hps3⟩
      · rcases mem_aupsert h with h2 | h2
        · exact Or.inl h2
        · exact Or.inr ⟨e, List.mem_cons_self e rest, hz, h2⟩
      · exact Or.inr ⟨ps, List.mem_cons_of_mem e hps, hps2, hps3⟩

theorem packFold_keys_nodup (db : StatisticsDatabase) (L : List (Prompt × QuestionStats))
    (acc : List (String × PromptDataTOML)) (h : (acc.map Prod.fst).Nodup) :
    ((packFold db L acc).map Prod.fst).Nodup := by
  induction L generalizing acc with
  | nil => exact h
  | cons e rest ih =>
    by_cases hz : e.2.correct = 0 ∧ e.2.mistakes = 0
    · rw [show packFold db (e :: rest) acc = packFold db rest acc from by
        simp [packFold, hz]]
      exact ih acc h
    · rw [show packFold db (e :: rest) acc = packFold db rest
        (aupsert acc e.1.encode ⟨e.2.streak, e.2.correct, e.2.mistakes, answersGet db e.1⟩)
        from by simp [packFold, hz]]
      exact ih _ (keys_nodup_aupsert _ _ h)

/-! Reconciliation (`expand`) lemmas. -/

theorem expand_cons_err {db : StatisticsDatabase} {rc : Nat} {e : String × PromptDataTOML}
    {rest : List (String × PromptDataTOML)} {c : ExitCode}
    (h : decodePrompt e.1 = .error c) : expand db rc (e :: rest) = .error c := by
  simp [expand, h]

theorem expand_cons_dead {db : StatisticsDatabase} {rc : Nat} {e : String × PromptDataTOML}
    {rest : List (String × PromptDataTOML)} {p : Prompt}
    (h : decodePrompt e.1 = .ok p) (h2 : (alookup db.statistics p).isNone) :
    expand db rc (e :: rest) =
      expand { db with deadRecords := aupsert db.deadRecords e.1 e.2 } rc rest := by
  simp [expand, h, h2]

theorem expand_cons_reset {db : StatisticsDatabase} {rc : Nat} {e : String × PromptDataTOML}
    {rest : List (String × PromptDataTOML)} {p : Prompt}
    (h : decodePrompt e.1 = .ok p) (h2 : ¬ (alookup db.statistics p).isNone = true)
    (h3 : e.2.Answer ≠ answersGet db p) :
    expand db rc (e :: rest) = expand db (rc + 1) rest := by
  simp [expand, h, h2, h3]

theorem expand_cons_adopt {db : StatisticsDatabase} {rc : Nat} {e : String × PromptDataTOML}
    {rest : List (String × PromptDataTOML)} {p : Prompt}
    (h : decodePrompt e.1 = .ok p) (h2 : ¬ (alookup db.statistics p).isNone = true)
    (h3 : e.2.Answer = answersGet db p) :
    expand db rc (e :: rest)
      = expand (updateStats db p ⟨e.2.Streak, e.2.Correct, e.2.Mistakes⟩) rc rest := by
  simp [expand, h, h2, h3]

theorem not_isNone_of_isSome {α : Type} {o : Option α} (h : o.isSome) :
    ¬ o.isNone = true := by
  cases o <;> simp_all

theorem isSome_of_not_isNone {α : Type} {o : Option α} (h : ¬ o.isNone = true) :
    o.isSome := by
  cases o <;> simp_all

theorem updateStats_lookup_isSome (db : StatisticsDatabase) (q : Prompt)
    (ns : QuestionStats) {q' : Prompt} (h : (alookup db.statistics q').isSome) :
    (alookup (updateStats db q ns).statistics q').isSome := by
  by_cases hq : q' = q
  · subst hq
    rw [show (updateStats db q' ns).statistics = aupsert db.statistics q' ns from rfl,
      alookup_aupsert_self]
    rfl
  · rw [show (updateStats db q ns).statistics = aupsert db.statistics q ns from rfl,
      alookup_aupsert_ne _ _ hq]
    exact h

theorem mem_unique_of_nodup_keys {α β : Type} [DecidableEq α] {T : List (α × β)}
    {k : α} {d : β} {e : α × β} (hnd : (T.map Prod.fst).Nodup)
    (h1 : (k, d) ∈ T) (h2 : e ∈ T) (hk : e.1 = k) : e = (k, d) := by
  obtain ⟨e1, e2⟩ := e
  simp only at hk
  subst hk
  have ha := alookup_of_mem_nodup h1 hnd
  have hb := alookup_of_mem_nodup h2 hnd
  rw [ha] at hb
  rw [Option.some.inj hb]

theorem expand_nil_ok {db : StatisticsDatabase} {rc : Nat} {db' : StatisticsDatabase}
    {rc' : Nat} (h : expand db rc [] = .ok (db', rc')) : db' = db ∧ rc' = rc := by
  simp only [expand, Except.ok.injEq, Prod.mk.injEq] at h
  exact ⟨h.1.symm, h.2.symm⟩

theorem expand_fields : ∀ (T : List (String × PromptDataTOML)) (db : StatisticsDatabase)
    (rc : Nat) {db' : StatisticsDatabase} {rc' : Nat},
    expand db rc T = .ok (db', rc') →
    db'.answers = db.answers ∧ db'.totalProbWeight = db.totalProbWeight ∧
    db'.statistics.map Prod.fst = db.statistics.map Prod.fst ∧ rc ≤ rc' := by
  intro T
  induction T with
  | nil =>
    intro db rc db' rc' h
    obtain ⟨h1, h2⟩ := expand_nil_ok h
    subst h1
    subst h2
    exact ⟨rfl, rfl, rfl, le_refl _⟩
  | cons e rest ih =>
    intro db rc db' rc' h
    rcases hdec : decodePrompt e.1 with c | p
    · rw [expand_cons_err hdec] at h
      exact absurd h (by simp)
    · by_cases habs : (alookup db.statistics p).isNone = true
      · rw [expand_cons_dead hdec habs] at h
        obtain ⟨h1, h2, h3, h4⟩ :=
          ih { db with deadRecords := aupsert db.deadRecords e.1 e.2 } rc h
        exact ⟨h1, h2, h3, h4⟩
      · by_cases hans : e.2.Answer = answersGet db p
        · rw [expand_cons_adopt hdec habs hans] at h
          obtain ⟨h1, h2, h3, h4⟩ :=
            ih (updateStats db p ⟨e.2.Streak, e.2.Correct, e.2.Mistakes⟩) rc h
          refine ⟨h1, h2, ?_, h4⟩
          rw [h3]
          exact updateStats_keys db _
            ((alookup_isSome_iff _ _).mp (isSome_of_not_isNone habs))
        · rw [expand_cons_reset hdec habs hans] at h
          obtain ⟨h1, h2, h3, h4⟩ := ih _ _ h
          exact ⟨h1, h2, h3, by omega⟩

theorem expand_ok : ∀ (T : List (String × PromptDataTOML)) (db : StatisticsDatabase)
    (rc : Nat), (∀ e ∈ T, ∃ q, decodePrompt e.1 = .ok q) →
    ∃ db' rc', expand db rc T = .ok (db', rc') := by
  intro T
  induction T with
  | nil => exact fun db rc _ => ⟨db, rc, rfl⟩
  | cons e rest ih =>
    intro db rc hwf
    obtain ⟨q, hdec⟩ := hwf e (List.mem_cons_self e rest)
    have hwfr : ∀ e2 ∈ rest, ∃ q2, decodePrompt e2.1 = .ok q2 :=
      fun e2 he2 => hwf e2 (List.mem_cons_of_mem e he2)
    by_cases habs : (alookup db.statistics q).isNone = true
    · obtain ⟨db', rc', hr⟩ := ih _ rc hwfr
      exact ⟨db', rc', by rw [expand_cons_dead hdec habs]; exact hr⟩
    · by_cases hans : e.2.Answer = answersGet db q
      · obtain ⟨db', rc', hr⟩ := ih _ rc hwfr
        exact ⟨db', rc', by rw [expand_cons_adopt hdec habs hans]; exact hr⟩
      · obtain ⟨db', rc', hr⟩ := ih db (rc + 1) hwfr
        exact ⟨db', rc', by rw [expand_cons_reset hdec habs hans]; exact hr⟩

theorem expand_lookup_no_adopt : ∀ (T : List (String × PromptDataTOML))
    (db : StatisticsDatabase) (rc : Nat) {db' : StatisticsDatabase} {rc' : Nat}
    {p : Prompt}, expand db rc T = .ok (db', rc') →
    (∀ e ∈ T, decodePrompt e.1 = .ok p →
      (alookup db.statistics p).isNone = true ∨ e.2.Answer ≠ answersGet db p) →
    alookup db'.statistics p = alookup db.statistics p := by
  intro T
  induction T with
  | nil =>
    intro db rc db' rc' p h _
    rw [(expand_nil_ok h).1]
  | cons e rest ih =>
    intro db rc db' rc' p h hT
    rcases hdec : decodePrompt e.1 with c | q
    · rw [expand_cons_err hdec] at h
      exact absurd h (by simp)
    · by_cases habs : (alookup db.statistics q).isNone = true
      · rw [expand_cons_dead hdec habs] at h
        exact ih { db with deadRecords := aupsert db.deadRecords e.1 e.2 } rc h
          (fun e2 he2 => hT e2 (List.mem_cons_of_mem e he2))
      · by_cases hans : e.2.Answer = answersGet db q
        · rw [expand_cons_adopt hdec habs hans] at h
          have hqp : q ≠ p := by
            intro hh
            subst hh
            rcases hT e (List.mem_cons_self e rest) hdec with hc | hc
            · exact habs hc
            · exact hc hans
          have hstep : alookup (updateStats db q
              ⟨e.2.Streak, e.2.Correct, e.2.Mistakes⟩).statistics p
              = alookup db.statistics p := by
            rw [show (updateStats db q ⟨e.2.Streak, e.2.Correct, e.2.Mistakes⟩).statistics
              = aupsert db.statistics q ⟨e.2.Streak, e.2.Correct, e.2.Mistakes⟩ from rfl,
              alookup_aupsert_ne _ _ (fun hh => hqp hh.symm)]
          rw [← hstep]
          refine ih (updateStats db q ⟨e.2.Streak, e.2.Correct, e.2.Mistakes⟩) rc h ?_
          intro e2 he2 hdec2
          rcases hT e2 (List.mem_cons_of_mem e he2) hdec2 with hc | hc
          · refine Or.inl ?_
            rw [hstep]
            exact hc
          · exact Or.inr hc
        · rw [expand_cons_reset hdec habs hans] at h
          exact ih db (rc + 1) h (fun e2 he2 => hT e2 (List.mem_cons_of_mem e he2))

theorem expand_dead_lookup_ne : ∀ (T : List (String × PromptDataTOML))
    (db : StatisticsDatabase) (rc : Nat) {db' : StatisticsDatabase} {rc' : Nat}
    {k : String}, expand db rc T = .ok (db', rc') →
    (∀ e ∈ T, e.1 = k → ∃ q, decodePrompt e.1 = .ok q ∧
      (alookup db.statistics q).isSome) →
    alookup db'.deadRecords k = alookup db.deadRecords k := by
  intro T
  induction T with
  | nil =>
    intro db rc db' rc' k h _
    rw [(expand_nil_ok h).1]
  | cons e rest ih =>
    intro db rc db' rc' k h hT
    rcases hdec : decodePrompt e.1 with c | q
    · rw [expand_cons_err hdec] at h
      exact absurd h (by simp)
    · by_cases habs : (alookup db.statistics q).isNone = true
      · rw [expand_cons_dead hdec habs] at h
        have hek : e.1 ≠ k := by
          intro hh
          obtain ⟨q2, hdec2, hsome2⟩ := hT e (List.mem_cons_self e rest) hh
          rw [hdec] at hdec2
          obtain rfl := Except.ok.inj hdec2
          exact not_isNone_of_isSome hsome2 habs
        have hres := ih { db with deadRecords := aupsert db.deadRecords e.1 e.2 } rc h
          (fun e2 he2 hk2 => hT e2 (List.mem_cons_of_mem e he2) hk2)
        rw [hres]
        exact alookup_aupsert_ne _ _ (fun hh => hek hh.symm)
      · by_cases hans : e.2.Answer = answersGet db q
        · rw [expand_cons_adopt hdec habs hans] at h
          refine ih (updateStats db q ⟨e.2.Streak, e.2.Correct, e.2.Mistakes⟩) rc h ?_
          intro e2 he2 hk2
          obtain ⟨q2, hdec2, hsome2⟩ := hT e2 (List.mem_cons_of_mem e he2) hk2
          exact ⟨q2, hdec2, updateStats_lookup_isSome db q _ hsome2⟩
        · rw [expand_cons_reset hdec habs hans] at h
          exact ih db (rc + 1) h
            (fun e2 he2 hk2 => hT e2 (List.mem_cons_of_mem e he2) hk2)

theorem expand_adopt_lookup : ∀ (T : List (String × PromptDataTOML))
    (db : StatisticsDatabase) (rc : Nat) {db' : StatisticsDatabase} {rc' : Nat}
    {p : Prompt} {d : PromptDataTOML} {k : String},
    expand db rc T = .ok (db', rc') →
    decodePrompt k = .ok p → (k, d) ∈ T → (T.map Prod.fst).Nodup →
    (∀ e ∈ T, ∃ q, decodePrompt e.1 = .ok q) →
    (alookup db.statistics p).isSome →
    d.Answer = answersGet db p →
    alookup db'.statistics p = some ⟨d.Streak, d.Correct, d.Mistakes⟩ := by
  intro T
  induction T with
  | nil =>
    intro db rc db' rc' p d k _ _ hmem
    simp at hmem
  | cons e rest ih =>
    intro db rc db' rc' p d k h hk hmem hnd hwf hpres hans
    simp only [List.map_cons, List.nodup_cons] at hnd
    rcases List.mem_cons.mp hmem with hm | hm
    · have he : e = (k, d) := hm.symm
      subst he
      rw [expand_cons_adopt hk (not_isNone_of_isSome hpres) hans] at h
      have hT2 : ∀ e2 ∈ rest, decodePrompt e2.1 = .ok p →
          (alookup (updateStats db p ⟨d.Streak, d.Correct, d.Mistakes⟩).statistics p).isNone
            = true ∨
          e2.2.Answer ≠ answersGet (updateStats db p ⟨d.Streak, d.Correct, d.Mistakes⟩) p := by
        intro e2 he2 hdec2
        exfalso
        have hek : e2.1 = k := decode_ok_inj hdec2 hk
        have hmm : e2.1 ∈ rest.map Prod.fst := List.mem_map_of_mem Prod.fst he2
        rw [hek] at hmm
        exact hnd.1 hmm
      have hfin := expand_lookup_no_adopt rest
        (updateStats db p ⟨d.Streak, d.Correct, d.Mistakes⟩) rc h hT2
      rw [hfin,
        show (updateStats db p ⟨d.Streak, d.Correct, d.Mistakes⟩).statistics
          = aupsert db.statistics p ⟨d.Streak, d.Correct, d.Mistakes⟩ from rfl,
        alookup_aupsert_self]
    · rcases hdec : decodePrompt e.1 with c | q
      · rw [expand_cons_err hdec] at h
        exact absurd h (by simp)
      · have hwfr : ∀ e2 ∈ rest, ∃ q2, decodePrompt e2.1 = .ok q2 :=
          fun e2 he2 => hwf e2 (List.mem_cons_of_mem e he2)
        by_cases habs : (alookup db.statistics q).isNone = true
        · rw [expand_cons_dead hdec habs] at h
          exact ih { db with deadRecords := aupsert db.deadRecords e.1 e.2 } rc
            h hk hm hnd.2 hwfr hpres hans
        · by_cases hansq : e.2.Answer = answersGet db q
          · rw [expand_cons_adopt hdec habs hansq] at h
            have hqp : q ≠ p := by
              intro hh
              subst hh
              have hek : e.1 = k := decode_ok_inj hdec hk
              have hmm : k ∈ rest.map Prod.fst := List.mem_map_of_mem Prod.fst hm
              rw [← hek] at hmm
              exact hnd.1 hmm
            have hstep : alookup (updateStats db q
                ⟨e.2.Streak, e.2.Correct, e.2.Mistakes⟩).statistics p
                = alookup db.statistics p := by
              rw [show (updateStats db q ⟨e.2.Streak, e.2.Correct, e.2.Mistakes⟩).statistics
                = aupsert db.statistics q ⟨e.2.Streak, e.2.Correct, e.2.Mistakes⟩ from rfl,
                alookup_aupsert_ne _ _ (fun hh => hqp hh.symm)]
            refine ih (updateStats db q ⟨e.2.Streak, e.2.Correct, e.2.Mistakes⟩) rc
              h hk hm hnd.2 hwfr ?_ hans
            rw [hstep]
            exact hpres
          · rw [expand_cons_reset hdec habs hansq] at h
            exact ih db (rc + 1) h hk hm hnd.2 hwfr hpres hans

theorem expand_rc_reset : ∀ (T : List (String × PromptDataTOML))
    (db : StatisticsDatabase) (rc : Nat) {db' : StatisticsDatabase} {rc' : Nat},
    expand db rc T = .ok (db', rc') →
    (∃ e ∈ T, ∃ q, decodePrompt e.1 = .ok q ∧ (alookup db.statistics q).isSome ∧
      e.2.Answer ≠ answersGet db q) → rc < rc' := by
  intro T
  induction T with
  | nil =>
    intro db rc db' rc' _ hex
    simp at hex
  | cons e rest ih =>
    intro db rc db' rc' h hex
    rcases hdec : decodePrompt e.1 with c | q
    · rw [expand_cons_err hdec] at h
      exact absurd h (by simp)
    · rcases hex with ⟨e2, he2, q2, hdec2, hsome2, hne2⟩
      rcases List.mem_cons.mp he2 with hm | hm
      · subst hm
        rw [hdec] at hdec2
        obtain rfl := Except.ok.inj hdec2
        rw [expand_cons_reset hdec (not_isNone_of_isSome hsome2) hne2] at h
        have := (expand_fields rest _ _ h).2.2.2
        omega
      · by_cases habs : (alookup db.statistics q).isNone = true
        · rw [expand_cons_dead hdec habs] at h
          exact ih { db with deadRecords := aupsert db.deadRecords e.1 e.2 } rc h
            ⟨e2, hm, q2, hdec2, hsome2, hne2⟩
        · by_cases hans : e.2.Answer = answersGet db q
          · rw [expand_cons_adopt hdec habs hans] at h
            exact ih (updateStats db q ⟨e.2.Streak, e.2.Correct, e.2.Mistakes⟩) rc h
              ⟨e2, hm, q2, hdec2, updateStats_lookup_isSome db q _ hsome2, hne2⟩
          · rw [expand_cons_reset hdec habs hans] at h
            have := ih db (rc + 1) h ⟨e2, hm, q2, hdec2, hsome2, hne2⟩
            omega

theorem expand_dead_insert : ∀ (T : List (String × PromptDataTOML))
    (db : StatisticsDatabase) (rc : Nat) {db' : StatisticsDatabase} {rc' : Nat}
    {k : String} {d : PromptDataTOML} {p : Prompt},
    expand db rc T = .ok (db', rc') →
    (k, d) ∈ T → (T.map Prod.fst).Nodup →
    decodePrompt k = .ok p → alookup db.statistics p = none →
    alookup db'.deadRecords k = some d := by
  intro T
  induction T with
  | nil =>
    intro db rc db' rc' k d p _ hmem
    simp at hmem
  | cons e rest ih =>
    intro db rc db' rc' k d p h hmem hnd hk habsent
    simp only [List.map_cons, List.nodup_cons] at hnd
    rcases List.mem_cons.mp hmem with hm | hm
    · have he : e = (k, d) := hm.symm
      subst he
      rw [expand_cons_dead hk (by rw [habsent]; rfl)] at h
      have hT2 : ∀ e2 ∈ rest, e2.1 = k → ∃ q,
          decodePrompt e2.1 = .ok q ∧
          (alookup ({ db with deadRecords := aupsert db.deadRecords k d } :
            StatisticsDatabase).statistics q).isSome := by
        intro e2 he2 hk2
        exfalso
        have hmm : e2.1 ∈ rest.map Prod.fst := List.mem_map_of_mem Prod.fst he2
        rw [hk2] at hmm
        exact hnd.1 hmm
      have hfin := expand_dead_lookup_ne rest
        { db with deadRecords := aupsert db.deadRecords k d } rc h hT2
      rw [hfin]
      exact alookup_aupsert_self _ _ _
    · rcases hdec : decodePrompt e.1 with c | q
      · rw [expand_cons_err hdec] at h
        exact absurd h (by simp)
      · by_cases habs : (alookup db.statistics q).isNone = true
        · rw [expand_cons_dead hdec habs] at h
          exact ih { db with deadRecords := aupsert db.deadRecords e.1 e.2 } rc h
            hm hnd.2 hk habsent
        · by_cases hans : e.2.Answer = answersGet db q
          · rw [expand_cons_adopt hdec habs hans] at h
            have hqp : q ≠ p := by
              intro hh
              subst hh
              rw [habsent] at habs
              exact habs rfl
            refine ih (updateStats db q ⟨e.2.Streak, e.2.Correct, e.2.Mistakes⟩) rc h
              hm hnd.2 hk ?_
            rw [show (updateStats db q ⟨e.2.Streak, e.2.Correct, e.2.Mistakes⟩).statistics
              = aupsert db.statistics q ⟨e.2.Streak, e.2.Correct, e.2.Mistakes⟩ from rfl,
              alookup_aupsert_ne _ _ (fun hh => hqp hh.symm)]
            exact habsent
          · rw [expand_cons_reset hdec habs hans] at h
            exact ih db (rc + 1) h hm hnd.2 hk habsent

theorem expand_rc_no_reset : ∀ (T : List (String × PromptDataTOML))
    (db : StatisticsDatabase) (rc : Nat) {db' : StatisticsDatabase} {rc' : Nat},
    expand db rc T = .ok (db', rc') →
    (∀ e ∈ T, ∀ q, decodePrompt e.1 = .ok q → e.2.Answer = answersGet db q) →
    rc' = rc := by
  intro T
  induction T with
  | nil =>
    intro db rc db' rc' h _
    exact (expand_nil_ok h).2
  | cons e rest ih =>
    intro db rc db' rc' h hT
    rcases hdec : decodePrompt e.1 with c | q
    · rw [expand_cons_err hdec] at h
      exact absurd h (by simp)
    · by_cases habs : (alookup db.statistics q).isNone = true
      · rw [expand_cons_dead hdec habs] at h
        exact ih { db with deadRecords := aupsert db.deadRecords e.1 e.2 } rc h
          (fun e2 he2 => hT e2 (List.mem_cons_of_mem e he2))
      · by_cases hans : e.2.Answer = answersGet db q
        · rw [expand_cons_adopt hdec habs hans] at h
          exact ih (updateStats db q ⟨e.2.Streak, e.2.Correct, e.2.Mistakes⟩) rc h
            (fun e2 he2 => hT e2 (List.mem_cons_of_mem e he2))
        · exact absurd (hT e (List.mem_cons_self e rest) q hdec) hans

/-! Concrete tables and prompts used by the example-level theorems. -/

/-- A vocabulary with a single valid prompt (clue "1sg", verb "run"). -/
def oneVerbTable : WordDatabase := ⟨["1sg"], ["run"], [["run"]]⟩

/-- The two-prompt vocabulary of the spec's end-to-end example. -/
def twoPromptTable : WordDatabase := ⟨["1sg", "3sg"], ["run"], [["run", "runs"]]⟩

/-- A vocabulary whose only form cell is empty: zero valid prompts. -/
def noPromptTable : WordDatabase := ⟨["1sg"], ["run"], [[""]]⟩

def p1sgRun : Prompt := ⟨"1sg", "run"⟩

def p3sgRun : Prompt := ⟨"3sg", "run"⟩

/-! Claim theorems. -/

/-- C1: the incremental weight invariant is BROKEN in the code.  After one
`continueStreak` on the single-prompt store, the caller-visible
`totalProbWeight` is still `1` (the value-receiver of `updateStats`
discards its weight adjustment) while the recomputed sum of
`1/(1+streak)` over all entries is `1/2`; the spec-intended variant
`continueStreakSpec` keeps the two equal.  This exhibits the code bug that
refutes the claimed invariant. -/
theorem C1_weight_invariant_broken :
    (continueStreak (emptyStatistics oneVerbTable) p1sgRun).totalProbWeight = 1 ∧
    weightSum (continueStreak (emptyStatistics oneVerbTable) p1sgRun) = 1 / 2 ∧
    (continueStreak (emptyStatistics oneVerbTable) p1sgRun).totalProbWeight ≠
      weightSum (continueStreak (emptyStatistics oneVerbTable) p1sgRun) ∧
    (continueStreakSpec (emptyStatistics oneVerbTable) p1sgRun).totalProbWeight =
      weightSum (continueStreakSpec (emptyStatistics oneVerbTable) p1sgRun) := by
  refine ⟨?_, ?_, ?_, ?_⟩ <;>
  · simp +decide [oneVerbTable, p1sgRun, emptyStatistics, catalogEntries, catalogRows,
      rowEntries, insertEntry, continueStreak, continueStreakSpec, updateStats,
      updateStatsSpec, statsGet, answersGet, alookup, aupsert, weightSum,
      QuestionStats.probWeight, u16]
    try norm_num

/-- C2: in the spec's end-to-end example, after `continueStreak` on the
"1sg"+"run" prompt the caller-visible `totalProbWeight` is still `2`, NOT
the claimed `1.5` (same value-receiver bug as C1); the selection pass at
the draw `r = 1.4` does return the "3sg"+"run" question under the 1sg-first
iteration order, and the spec-intended `continueStreakSpec` does yield
`totalProbWeight = 1.5`. -/
theorem C2_sampling_example_stale_weight :
    (continueStreak (emptyStatistics twoPromptTable) p1sgRun).totalProbWeight = 2 ∧
    (continueStreak (emptyStatistics twoPromptTable) p1sgRun).totalProbWeight ≠ 3 / 2 ∧
    samplePass (continueStreak (emptyStatistics twoPromptTable) p1sgRun)
      (continueStreak (emptyStatistics twoPromptTable) p1sgRun).statistics (7 / 5)
      = some ⟨p3sgRun, "runs"⟩ ∧
    (continueStreakSpec (emptyStatistics twoPromptTable) p1sgRun).totalProbWeight
      = 3 / 2 := by
  refine ⟨?_, ?_, ?_, ?_⟩ <;>
  · simp +decide [twoPromptTable, p1sgRun, p3sgRun, emptyStatistics, catalogEntries,
      catalogRows, rowEntries, insertEntry, continueStreak, continueStreakSpec,
      updateStats, updateStatsSpec, statsGet, answersGet, alookup, aupsert,
      samplePass, QuestionStats.probWeight, u16]
    try norm_num

/-- C3: the code performs NO fatal-exit check for an empty catalog.  On a
table with zero valid prompts the fresh store is empty (`totalWeight = 0`)
and `getRandomQuestion` never selects anything: every retry pass misses,
for every fuel bound and every stream of random draws, i.e. the source's
unguarded recursion never returns instead of terminating with a distinct
exit status.  This exhibits the code bug that refutes the claimed
error-handling behaviour. -/
theorem C3_empty_catalog_sampler_never_returns :
    (emptyStatistics noPromptTable).statistics = [] ∧
    (emptyStatistics noPromptTable).totalProbWeight = 0 ∧
    ∀ (fuel : Nat) (draws : List ℚ),
      getRandomQuestion (emptyStatistics noPromptTable) fuel draws = none := by
  have hstats : (emptyStatistics noPromptTable).statistics = [] := rfl
  refine ⟨hstats, by norm_num [noPromptTable, emptyStatistics, catalogEntries,
    catalogRows, rowEntries, insertEntry], ?_⟩
  intro fuel
  induction fuel with
  | zero =>
    intro draws
    rfl
  | succ n ihn =>
    intro draws
    cases draws with
    | nil => rfl
    | cons u us =>
      simp only [getRandomQuestion, hstats, samplePass]
      exact ihn us

/-- C8: decoding a persisted statistics key whose character sequence does
not split on the separator `'+'` into exactly two fields is fatal: the
program terminates through `exit(statisticsError)` (exit status 6), never
skipping or partially parsing the key. -/
theorem C8_malformed_key_fatal (s : String)
    (h : (splitPlus s.data).length ≠ 2) :
    decodePrompt s = .error ExitCode.statisticsError :=
  decode_error_of_len h

/-- C8 witness: both spec examples, the separator-free key and the
two-separator key, are rejected with the statistics exit code. -/
theorem C8_malformed_key_fatal_witness :
    (splitPlus "onlyonefield".data).length ≠ 2 ∧
    decodePrompt "onlyonefield" = .error ExitCode.statisticsError ∧
    (splitPlus "a+b+c".data).length ≠ 2 ∧
    decodePrompt "a+b+c" = .error ExitCode.statisticsError :=
  ⟨by decide, C8_malformed_key_fatal "onlyonefield" (by decide),
    by decide, C8_malformed_key_fatal "a+b+c" (by decide)⟩

/-- C10: a submitted answer is judged correct exactly when the correct
answer and the submitted text agree after stripping leading and trailing
Unicode whitespace (Go's `strings.TrimSpace`) from both; the interior is
compared exactly, case-sensitively. -/
theorem C10_answer_trim_comparison (correctAnswer submitted : String) :
    isAnswerCorrect correctAnswer submitted = true ↔
      trimSpace correctAnswer = trimSpace submitted := by
  simp [isAnswerCorrect]

/-- C6: during reconciliation, a saved entry whose prompt exists in the
fresh store but whose recorded answer differs from the fresh answer is
reset: after `expand` the prompt keeps the fresh zero statistics, the
entry is not retained as a dead record, and the reset counter reports at
least one reset (informational, not fatal). -/
theorem C6_answer_change_reset (dbw : WordDatabase)
    (T : List (String × PromptDataTOML)) (k : String) (d : PromptDataTOML)
    (p : Prompt) {db' : StatisticsDatabase} {rc : Nat}
    (hnd : (T.map Prod.fst).Nodup)
    (hmem : (k, d) ∈ T)
    (hk : decodePrompt k = .ok p)
    (hpres : (alookup (emptyStatistics dbw).statistics p).isSome)
    (hans : d.Answer ≠ answersGet (emptyStatistics dbw) p)
    (hexp : expand (emptyStatistics dbw) 0 T = .ok (db', rc)) :
    alookup db'.statistics p = some ⟨0, 0, 0⟩ ∧
    alookup db'.deadRecords k = none ∧
    1 ≤ rc := by
  obtain ⟨s0, hs0⟩ := Option.isSome_iff_exists.mp hpres
  have hzero := emptyStatistics_values_zero dbw p s0 hs0
  subst hzero
  refine ⟨?_, ?_, ?_⟩
  · have hT : ∀ e ∈ T, decodePrompt e.1 = .ok p →
        (alookup (emptyStatistics dbw).statistics p).isNone = true ∨
        e.2.Answer ≠ answersGet (emptyStatistics dbw) p := by
      intro e he hdec
      have hek : e.1 = k := decode_ok_inj hdec hk
      have he2 : e = (k, d) := mem_unique_of_nodup_keys hnd hmem he hek
      subst he2
      exact Or.inr hans
    rw [expand_lookup_no_adopt T _ _ hexp hT, hs0]
  · have hT : ∀ e ∈ T, e.1 = k → ∃ q, decodePrompt e.1 = .ok q ∧
        (alookup (emptyStatistics dbw).statistics q).isSome := by
      intro e he hek
      have he2 : e = (k, d) := mem_unique_of_nodup_keys hnd hmem he hek
      subst he2
      exact ⟨p, hk, hpres⟩
    rw [expand_dead_lookup_ne T _ _ hexp hT, emptyStatistics_dead]
    rfl
  · exact expand_rc_reset T _ _ hexp ⟨(k, d), hmem, p, hk, hpres, hans⟩

/-- C6 witness: a snapshot entry for the "1sg"+"run" prompt recording the
stale answer "old" against a fresh catalog whose answer is "run" is reset
to zero statistics, left out of the dead records, and counted. -/
theorem C6_answer_change_reset_witness :
    alookup (emptyStatistics twoPromptTable).statistics p1sgRun = some ⟨0, 0, 0⟩ ∧
    alookup (emptyStatistics twoPromptTable).deadRecords "1sg+run" = none ∧
    1 ≤ 1 :=
  C6_answer_change_reset twoPromptTable [("1sg+run", ⟨5, 5, 0, "old"⟩)] "1sg+run"
    ⟨5, 5, 0, "old"⟩ p1sgRun (by decide) (by decide) rfl (by decide) (by decide) rfl

/-- C7: a saved entry whose decoded prompt is absent from the current
vocabulary is kept as a dead record under its original encoded key, is not
injected into the live statistics, and a subsequent `pack` emits it with
its data unchanged. -/
theorem C7_dead_record_roundtrip (dbw : WordDatabase)
    (T : List (String × PromptDataTOML)) (k : String) (d : PromptDataTOML)
    (p : Prompt) {db' : StatisticsDatabase} {rc : Nat}
    (hnd : (T.map Prod.fst).Nodup)
    (hmem : (k, d) ∈ T)
    (hk : decodePrompt k = .ok p)
    (habs : alookup (emptyStatistics dbw).statistics p = none)
    (hexp : expand (emptyStatistics dbw) 0 T = .ok (db', rc)) :
    alookup db'.deadRecords k = some d ∧
    alookup db'.statistics p = none ∧
    alookup (pack db').1 k = some d := by
  have hdead : alookup db'.deadRecords k = some d :=
    expand_dead_insert T _ _ hexp hmem hnd hk habs
  have hstats : alookup db'.statistics p = none := by
    have hT : ∀ e ∈ T, decodePrompt e.1 = .ok p →
        (alookup (emptyStatistics dbw).statistics p).isNone = true ∨
        e.2.Answer ≠ answersGet (emptyStatistics dbw) p := by
      intro e _ _
      rw [habs]
      exact Or.inl rfl
    rw [expand_lookup_no_adopt T _ _ hexp hT]
    exact habs
  refine ⟨hdead, hstats, ?_⟩
  have hkeys := (expand_fields T _ _ hexp).2.2.1
  have hne : ∀ e ∈ db'.statistics, Prompt.encode e.1 ≠ k := by
    intro e he
    refine encode_ne_of_decode_ok hk ?_
    intro hep
    have hmm : e.1 ∈ db'.statistics.map Prod.fst := List.mem_map_of_mem Prod.fst he
    rw [hkeys, hep] at hmm
    exact (alookup_eq_none_iff _ _).mp habs hmm
  show alookup (packFold db' db'.statistics db'.deadRecords) k = some d
  rw [packFold_lookup_ne db' db'.statistics db'.deadRecords hne]
  exact hdead

/-- C7 witness: a saved entry for the removed prompt "2pl"+"lire" survives
reconciliation against the one-prompt catalog as a dead record and is
emitted unchanged by the next pack. -/
theorem C7_dead_record_roundtrip_witness :
    alookup ({ emptyStatistics oneVerbTable with
        deadRecords := [("2pl+lire", ⟨3, 2, 1, "lisez"⟩)] } :
        StatisticsDatabase).deadRecords "2pl+lire" = some ⟨3, 2, 1, "lisez"⟩ ∧
    alookup ({ emptyStatistics oneVerbTable with
        deadRecords := [("2pl+lire", ⟨3, 2, 1, "lisez"⟩)] } :
        StatisticsDatabase).statistics ⟨"2pl", "lire"⟩ = none ∧
    alookup (pack ({ emptyStatistics oneVerbTable with
        deadRecords := [("2pl+lire", ⟨3, 2, 1, "lisez"⟩)] } :
        StatisticsDatabase)).1 "2pl+lire" = some ⟨3, 2, 1, "lisez"⟩ :=
  C7_dead_record_roundtrip oneVerbTable [("2pl+lire", ⟨3, 2, 1, "lisez"⟩)]
    "2pl+lire" ⟨3, 2, 1, "lisez"⟩ ⟨"2pl", "lire"⟩ (by decide) (by decide) rfl
    (by decide) rfl

/-- C9: `pack` mutates the store it serializes.  The returned snapshot IS
the store's deadRecords map (the source aliases, not copies, it), every
attempted live prompt's entry is inserted into that map, and the
statistics map, the answers map and totalProbWeight are left unchanged. -/
theorem C9_pack_frame_effect (db : StatisticsDatabase)
    (hnd : (db.statistics.map Prod.fst).Nodup)
    (hpf : ∀ e ∈ db.statistics, e.1.PlusFree) :
    (pack db).2.deadRecords = (pack db).1 ∧
    (pack db).2.statistics = db.statistics ∧
    (pack db).2.answers = db.answers ∧
    (pack db).2.totalProbWeight = db.totalProbWeight ∧
    ∀ p st, alookup db.statistics p = some st →
      ¬ (st.correct = 0 ∧ st.mistakes = 0) →
      alookup (pack db).2.deadRecords p.encode
        = some ⟨st.streak, st.correct, st.mistakes, answersGet db p⟩ := by
  refine ⟨rfl, rfl, rfl, rfl, ?_⟩
  intro p st hlk hatt
  exact packFold_lookup_mem db db.statistics db.deadRecords
    (mem_of_alookup_eq_some hlk) hnd hpf hatt

/-- A one-prompt store with one attempted prompt, used as the C9 witness. -/
def packWitnessStore : StatisticsDatabase :=
  ⟨[(p1sgRun, ⟨1, 1, 0⟩)], [(p1sgRun, "run")], 1, []⟩

/-- C9 witness: on the concrete store, the packed snapshot is the store's
dead-record map and carries the attempted prompt's entry. -/
theorem C9_pack_frame_effect_witness :
    (pack packWitnessStore).2.deadRecords = (pack packWitnessStore).1 ∧
    (pack packWitnessStore).2.statistics = packWitnessStore.statistics ∧
    alookup (pack packWitnessStore).2.deadRecords p1sgRun.encode
      = some ⟨1, 1, 0, "run"⟩ := by
  obtain ⟨h1, h2, _, _, h5⟩ := C9_pack_frame_effect packWitnessStore (by decide) (by decide)
  exact ⟨h1, h2, h5 p1sgRun ⟨1, 1, 0⟩ (by decide) (by decide)⟩

/-- C4: fresh catalog construction.  For a well-formed table (distinct clue
labels, distinct verbs, one form row per verb), the answers map holds
exactly the (clue, verb) pairs whose form-matrix cell is present and
non-empty (with that cell as the answer), the statistics map carries the
same prompts with the zero statistics, totalWeight equals the number of
valid prompts exactly, and the missing-field counter accounts for every
skipped pair. -/
theorem C4_fresh_catalog (db : WordDatabase)
    (h1 : db.formClue.Nodup) (h2 : db.verbs.Nodup)
    (h3 : db.verbForms.length = db.verbs.length) :
    (∀ clue verb a,
      alookup (emptyStatistics db).answers ⟨clue, verb⟩ = some a ↔
      ∃ vi ci : Nat, db.verbs[vi]? = some verb ∧ db.formClue[ci]? = some clue ∧
        formCell db vi ci = some a ∧ a ≠ "") ∧
    (∀ p, alookup (emptyStatistics db).statistics p
      = (alookup (emptyStatistics db).answers p).map
          (fun _ => (⟨0, 0, 0⟩ : QuestionStats))) ∧
    (emptyStatistics db).totalProbWeight
      = ((emptyStatistics db).statistics.length : ℚ) ∧
    (emptyStatistics db).statistics.length + missingFieldsCount db
      = db.verbs.length * db.formClue.length := by
  obtain ⟨clues, verbs, forms⟩ := db
  simp only at h1 h2 h3
  have hnd : ((catalogEntries ⟨clues, verbs, forms⟩).map Prod.fst).Nodup :=
    catalogEntries_keys_nodup clues h1 verbs forms h2
  have heq := emptyStatistics_eq ⟨clues, verbs, forms⟩ hnd
  refine ⟨?_, ?_, ?_, ?_⟩
  · intro clue verb a
    rw [heq]
    constructor
    · intro h
      have hm := mem_of_alookup_eq_some h
      have := (mem_catalogEntries_iff clues verbs forms h3 (⟨clue, verb⟩, a)).mp hm
      exact this
    · intro hex
      exact alookup_of_mem_nodup
        ((mem_catalogEntries_iff clues verbs forms h3 (⟨clue, verb⟩, a)).mpr hex) hnd
  · intro p
    rw [heq]
    exact alookup_map_val (catalogEntries ⟨clues, verbs, forms⟩)
      (fun _ => (⟨0, 0, 0⟩ : QuestionStats)) p
  · rw [heq]
    simp
  · rw [heq]
    simp only [List.length_map]
    exact catalogEntries_count clues verbs forms h3

/-- C4 witness: the conclusions of the catalog-construction theorem at the
concrete two-prompt table, with the answers characterization instantiated
at the ("1sg", "run") pair. -/
theorem C4_fresh_catalog_witness :
    (alookup (emptyStatistics twoPromptTable).answers ⟨"1sg", "run"⟩ = some "run" ↔
      ∃ vi ci : Nat, twoPromptTable.verbs[vi]? = some "run" ∧
        twoPromptTable.formClue[ci]? = some "1sg" ∧
        formCell twoPromptTable vi ci = some "run" ∧ "run" ≠ "") ∧
    (alookup (emptyStatistics twoPromptTable).statistics p1sgRun
      = (alookup (emptyStatistics twoPromptTable).answers p1sgRun).map
          (fun _ => (⟨0, 0, 0⟩ : QuestionStats))) ∧
    (emptyStatistics twoPromptTable).totalProbWeight
      = ((emptyStatistics twoPromptTable).statistics.length : ℚ) ∧
    (emptyStatistics twoPromptTable).statistics.length
        + missingFieldsCount twoPromptTable
      = twoPromptTable.verbs.length * twoPromptTable.formClue.length := by
  obtain ⟨ha, hb, hc, hd⟩ :=
    C4_fresh_catalog twoPromptTable (by decide) (by decide) (by decide)
  exact ⟨ha "1sg" "run" "run", hb p1sgRun, hc, hd⟩

/-- C5: reconciliation idempotence.  For any store obtained from a freshly
built vocabulary store by a session of answer submissions (each on a
prompt of the store, at most 65535 of them so no uint16 counter wraps),
packing a snapshot and reconciling it into a second fresh store over the
unchanged vocabulary succeeds with zero resets and reproduces every
prompt's statistics (streak, correct, mistakes) exactly. -/
theorem C5_reconciliation_idempotent (dbw : WordDatabase)
    (hc : ∀ c ∈ dbw.formClue, statisticsPromptSeparator ∉ c.data)
    (hv : ∀ v ∈ dbw.verbs, statisticsPromptSeparator ∉ v.data)
    (acts : List (Bool × Prompt))
    (hacts : ∀ a ∈ acts, a.2 ∈ (emptyStatistics dbw).statistics.map Prod.fst)
    (hlen : acts.length ≤ 65535) :
    ∃ db' : StatisticsDatabase,
      expand (emptyStatistics dbw) 0
        (pack (applyActs (emptyStatistics dbw) acts)).1 = .ok (db', 0) ∧
      ∀ p, alookup db'.statistics p
        = alookup (applyActs (emptyStatistics dbw) acts).statistics p := by
  set fresh := emptyStatistics dbw with hfresh
  set s := applyActs fresh acts with hsdef
  obtain ⟨hkeys, hans, hdead, _⟩ := applyActs_fields acts fresh hacts
  rw [← hsdef] at hkeys hans hdead
  have hfnodup := emptyStatistics_keys_nodup dbw
  have hfzero := emptyStatistics_values_zero dbw
  have hfpf := emptyStatistics_keys_plusfree dbw hc hv
  have hfdead := emptyStatistics_dead dbw
  have hsnodup : (s.statistics.map Prod.fst).Nodup := by
    rw [hkeys]
    exact hfnodup
  have hspf : ∀ e ∈ s.statistics, e.1.PlusFree := by
    intro e he
    have h0 : e.1 ∈ s.statistics.map Prod.fst := List.mem_map_of_mem Prod.fst he
    rw [hkeys] at h0
    exact hfpf e.1 h0
  have hbound : StatsBounded s acts.length := by
    have hb := statsBounded_applyActs acts (emptyStatistics_statsBounded dbw)
      (by omega)
    simpa using hb
  have hsnap : (pack s).1 = packFold s s.statistics [] := by
    show packFold s s.statistics s.deadRecords = _
    rw [hdead, hfdead]
  have hsound : ∀ x ∈ (pack s).1, ∃ ps, ps ∈ s.statistics ∧
      ¬ (ps.2.correct = 0 ∧ ps.2.mistakes = 0) ∧
      x = (Prompt.encode ps.1,
        ⟨ps.2.streak, ps.2.correct, ps.2.mistakes, answersGet s ps.1⟩) := by
    intro x hx
    rw [hsnap] at hx
    rcases mem_packFold s s.statistics [] x hx with h | ⟨ps, hps, hatt, hxeq⟩
    · simp at h
    · exact ⟨ps, hps, hatt, hxeq⟩
  have hwf : ∀ e ∈ (pack s).1, ∃ q, decodePrompt e.1 = .ok q := by
    intro e he
    obtain ⟨ps, hps, _, hxeq⟩ := hsound e he
    refine ⟨ps.1, ?_⟩
    rw [hxeq]
    exact decode_encode (hspf ps hps)
  obtain ⟨db', rc', hexp⟩ := expand_ok ((pack s).1) fresh 0 hwf
  have hrc : rc' = 0 := by
    refine expand_rc_no_reset ((pack s).1) _ _ hexp ?_
    intro e he q hdec
    obtain ⟨ps, hps, _, hxeq⟩ := hsound e he
    subst hxeq
    have h2 := decode_encode (hspf ps hps)
    rw [h2] at hdec
    obtain rfl := (Except.ok.inj hdec).symm
    show answersGet s ps.1 = answersGet fresh ps.1
    simp [answersGet, hans]
  subst hrc
  refine ⟨db', hexp, ?_⟩
  intro p
  rcases hp : alookup s.statistics p with _ | st
  · have hpk : p ∉ fresh.statistics.map Prod.fst := by
      rw [← hkeys]
      exact (alookup_eq_none_iff _ _).mp hp
    have hT : ∀ e ∈ (pack s).1, ¬ decodePrompt e.1 = .ok p := by
      intro e he hdec
      obtain ⟨ps, hps, _, hxeq⟩ := hsound e he
      subst hxeq
      have h2 := decode_encode (hspf ps hps)
      rw [h2] at hdec
      obtain rfl := Except.ok.inj hdec
      have h0 : ps.1 ∈ s.statistics.map Prod.fst := List.mem_map_of_mem Prod.fst hps
      rw [hkeys] at h0
      exact hpk h0
    rw [expand_lookup_no_adopt _ _ _ hexp (fun e he hdec => absurd hdec (hT e he))]
    exact (alookup_eq_none_iff _ _).mpr hpk
  · by_cases hatt : st.correct = 0 ∧ st.mistakes = 0
    · have hstz : st = ⟨0, 0, 0⟩ := by
        have hb := (hbound p).1
        have hget : statsGet s p = st := by simp [statsGet, hp]
        rw [hget] at hb
        obtain ⟨hc0, hm0⟩ := hatt
        obtain ⟨s1, s2, s3⟩ := st
        simp only at hb hc0 hm0
        subst hc0
        subst hm0
        have hs1 : s1 = 0 := by omega
        subst hs1
        rfl
      have hT : ∀ e ∈ (pack s).1, ¬ decodePrompt e.1 = .ok p := by
        intro e he hdec
        obtain ⟨ps, hps, hpsatt, hxeq⟩ := hsound e he
        subst hxeq
        have h2 := decode_encode (hspf ps hps)
        rw [h2] at hdec
        have hq := Except.ok.inj hdec
        have hlk2 : alookup s.statistics ps.1 = some ps.2 := by
          apply alookup_of_mem_nodup _ hsnodup
          rw [Prod.mk.eta]
          exact hps
        rw [hq, hp] at hlk2
        have heq2 : ps.2 = st := (Option.some.inj hlk2).symm
        rw [heq2] at hpsatt
        exact hpsatt hatt
      rw [expand_lookup_no_adopt _ _ _ hexp (fun e he hdec => absurd hdec (hT e he))]
      have hpkf : p ∈ fresh.statistics.map Prod.fst := by
        have h0 : p ∈ s.statistics.map Prod.fst :=
          (alookup_isSome_iff _ _).mp (by rw [hp]; rfl)
        rw [hkeys] at h0
        exact h0
      obtain ⟨s0, hs0⟩ := Option.isSome_iff_exists.mp
        ((alookup_isSome_iff _ _).mpr hpkf)
      have hs0z := hfzero p s0 hs0
      rw [hs0, hs0z, hstz]
    · have hmem : (p, st) ∈ s.statistics := mem_of_alookup_eq_some hp
      have hlk := packFold_lookup_mem s s.statistics [] hmem hsnodup hspf hatt
      rw [← hsnap] at hlk
      have hmemsnap := mem_of_alookup_eq_some hlk
      have hsnapnodup : ((pack s).1.map Prod.fst).Nodup := by
        rw [hsnap]
        exact packFold_keys_nodup s s.statistics [] List.nodup_nil
      have hpkf : p ∈ fresh.statistics.map Prod.fst := by
        have h0 : p ∈ s.statistics.map Prod.fst := List.mem_map_of_mem Prod.fst hmem
        rw [hkeys] at h0
        exact h0
      have hppf : p.PlusFree := hfpf p hpkf
      have hansd : (⟨st.streak, st.correct, st.mistakes,
          answersGet s p⟩ : PromptDataTOML).Answer = answersGet fresh p := by
        show answersGet s p = answersGet fresh p
        simp [answersGet, hans]
      have hfin := expand_adopt_lookup ((pack s).1) _ _ hexp (decode_encode hppf)
        hmemsnap hsnapnodup hwf ((alookup_isSome_iff _ _).mpr hpkf) hansd
      rw [hfin]

/-- C5 witness: the pack-then-reconcile round trip at the two-prompt
vocabulary after a single correct answer on the "1sg"+"run" prompt. -/
theorem C5_reconciliation_idempotent_witness :
    ∃ db' : StatisticsDatabase,
      expand (emptyStatistics twoPromptTable) 0
        (pack (applyActs (emptyStatistics twoPromptTable) [(true, p1sgRun)])).1
        = .ok (db', 0) ∧
      ∀ p, alookup db'.statistics p
        = alookup (applyActs (emptyStatistics twoPromptTable)
            [(true, p1sgRun)]).statistics p :=
  C5_reconciliation_idempotent twoPromptTable (by decide) (by decide)
    [(true, p1sgRun)] (by decide) (by decide)

end Gem2
